import Mathlib

/-!
Shallow embedding of the libgit2 diff module.

The repository ships the public contract in `include/git2/diff.h` (the only
file under `src/`): the data model (`git_delta_t`, `git_diff_file`,
`git_diff_delta`, `git_diff_range`, line-origin constants, option flags) and
the documented behaviour of `git_diff_merge`, `git_diff_foreach`, the diff
iterator, the printers and `git_diff_blobs`.  The C implementation files
(`diff.c`, `diff_output.c`, the xdiff engine) are not part of the sources, so
every operational definition below is modelled from the specification and the
header's documentation, as indicated by its doc comment.
-/

set_option linter.unusedVariables false

/-- Status of a delta record, from `git_delta_t` in diff.h. -/
inductive git_delta_t where
  | unmodified
  | added
  | deleted
  | modified
  | renamed
  | copied
  | ignored
  | untracked
deriving DecidableEq, Repr

/-- One side of a delta, from `git_diff_file` in diff.h.  The content id
(`oid`) uses the sentinel value `0` for an absent side, following the header
("When dealing with a NULL blob, `oid` will be set to 0").  The
memory-management `flags` of the C struct are irrelevant to the abstract
model and omitted. -/
structure git_diff_file where
  oid : Nat
  path : Option String
  size : Nat
  mode : Nat
deriving DecidableEq, Repr

/-- Description of changes to one file, from `git_diff_delta` in diff.h. -/
structure git_diff_delta where
  old_file : git_diff_file
  new_file : git_diff_file
  status : git_delta_t
  similarity : Nat
  binary : Bool
deriving DecidableEq, Repr

/-- A hunk's line range, from `git_diff_range` in diff.h. -/
structure git_diff_range where
  old_start : Int
  old_lines : Int
  new_start : Int
  new_lines : Int
deriving DecidableEq, Repr

/-- Line origin constants from diff.h. -/
def GIT_DIFF_LINE_CONTEXT : Char := ' '

def GIT_DIFF_LINE_ADDITION : Char := '+'

def GIT_DIFF_LINE_DELETION : Char := '-'

def GIT_DIFF_LINE_ADD_EOFNL : Char := '\n'

def GIT_DIFF_LINE_DEL_EOFNL : Char := Char.ofNat 0

def GIT_DIFF_LINE_FILE_HDR : Char := 'F'

def GIT_DIFF_LINE_HUNK_HDR : Char := 'H'

def GIT_DIFF_LINE_BINARY : Char := 'B'

/-- A single diff line: origin constant plus content bytes. -/
structure git_diff_line where
  origin : Char
  content : String
deriving DecidableEq, Repr

/-- A hunk together with the lines it produced. -/
structure git_hunk where
  range : git_diff_range
  header : String
  lines : List git_diff_line
deriving DecidableEq, Repr

/-- The user-abort status returned when a traversal callback returns
non-zero ("Returning a non-zero value from any of the callbacks will
terminate the iteration and cause this return `GIT_EUSER`"). -/
def GIT_EUSER : Int := -7

/-- The iterator-boundary sentinel ("This returns the value `GIT_ITEROVER`
after processing the last file"). -/
def GIT_ITEROVER : Int := -31

/-- Options affecting the behaviour modelled here.  The header's
`git_diff_options` also carries context/interhunk line counts, path
prefixes, a pathspec and `max_size`; those fields only affect components
outside the claims under study (hunk grouping, formatter prefixes,
adapter-side filtering) and are omitted.  `reverse`, `include_unmodified`
and `patience` correspond to the `GIT_DIFF_REVERSE`,
`GIT_DIFF_INCLUDE_UNMODIFIED` and `GIT_DIFF_PATIENCE` flag bits. -/
structure git_diff_options where
  reverse : Bool
  include_unmodified : Bool
  patience : Bool
deriving DecidableEq, Repr

/-- An entry yielded by the Content Source Adapter: an ordered
`(path, mode, size, content-id)` record (spec section 2). -/
structure git_index_entry where
  path : String
  oid : Nat
  mode : Nat
  size : Nat
deriving DecidableEq, Repr

/-- The absent side of a one-sided delta: zero content id, zero mode.  The
path is retained on both sides, as the delta is keyed by it. -/
def absent_file (p : String) : git_diff_file :=
  { oid := 0, path := some p, size := 0, mode := 0 }

/-- Build one side of a delta from an adapter entry. -/
def file_of_entry (e : git_index_entry) : git_diff_file :=
  { oid := e.oid, path := some e.path, size := e.size, mode := e.mode }

/-- Modelled from the spec: emission of a one-sided delta by the Delta
Builder (the C `diff_delta__from_one` is not under `src/`).  "The `REVERSE`
flag, if set, swaps old/new on every emitted delta and exchanges
Added/Deleted." -/
def diff_delta__from_one (o : git_diff_options) (status : git_delta_t)
    (e : git_index_entry) : git_diff_delta :=
  let status := if o.reverse then
      (match status with
        | .added => .deleted
        | .deleted => .added
        | s => s)
    else status
  if status = .deleted then
    { old_file := file_of_entry e, new_file := absent_file e.path,
      status := status, similarity := 0, binary := false }
  else
    { old_file := absent_file e.path, new_file := file_of_entry e,
      status := status, similarity := 0, binary := false }

/-- Modelled from the spec: emission of a two-sided delta by the Delta
Builder (the C `diff_delta__from_two` is not under `src/`).  With `REVERSE`
set the two entries swap roles. -/
def diff_delta__from_two (o : git_diff_options) (status : git_delta_t)
    (old_entry new_entry : git_index_entry) : git_diff_delta :=
  let p := if o.reverse then (new_entry, old_entry) else (old_entry, new_entry)
  { old_file := file_of_entry p.1, new_file := file_of_entry p.2,
    status := status, similarity := 0, binary := false }

/-- Modelled from the spec: the Delta Builder's sorted merge-join over the
two ordered entry sequences (spec section 4.1; the C implementation is not
under `src/`).  Path only in `old` gives Deleted, path only in `new` gives
Added, same path with equal content id and mode gives Unmodified (retained
only under `INCLUDE_UNMODIFIED`), otherwise Modified. -/
def git_diff__from_entries (o : git_diff_options) :
    List git_index_entry → List git_index_entry → List git_diff_delta
  | [], [] => []
  | [], n :: ns => diff_delta__from_one o .added n :: git_diff__from_entries o [] ns
  | d :: ds, [] => diff_delta__from_one o .deleted d :: git_diff__from_entries o ds []
  | d :: ds, n :: ns =>
    if d.path < n.path then
      diff_delta__from_one o .deleted d :: git_diff__from_entries o ds (n :: ns)
    else if n.path < d.path then
      diff_delta__from_one o .added n :: git_diff__from_entries o (d :: ds) ns
    else
      (if d.oid = n.oid ∧ d.mode = n.mode then
        (if o.include_unmodified then [diff_delta__from_two o .unmodified d n] else [])
      else [diff_delta__from_two o .modified d n]) ++ git_diff__from_entries o ds ns
termination_by a b => a.length + b.length

/-- The Reverse transformation on a single delta: swap the old and new
sides and exchange the Added and Deleted statuses. -/
def git_diff_delta.reversed (d : git_diff_delta) : git_diff_delta :=
  { d with old_file := d.new_file, new_file := d.old_file,
           status := match d.status with
             | .added => .deleted
             | .deleted => .added
             | s => s }

/-- The path-derived comparison key of a delta: the old path if present,
otherwise the new path (spec section 3). -/
def diff_delta__path (d : git_diff_delta) : String :=
  d.old_file.path.getD (d.new_file.path.getD "")

/-- Strict ordering of deltas by their path-derived comparison key. -/
def delta_key_lt (a b : git_diff_delta) : Prop :=
  diff_delta__path a < diff_delta__path b

/-- Classify a pair of sides by presence and equality of content id and
mode, used when the Merge Engine combines two deltas for one path. -/
def classify_sides (o n : git_diff_file) : git_delta_t :=
  if o.oid = n.oid ∧ o.mode = n.mode then .unmodified
  else if o.oid = 0 then .added
  else if n.oid = 0 then .deleted
  else .modified

/-- Modelled from the spec: the Merge Engine's per-path resolution (the C
`diff_delta__merge_like_cgit` is not under `src/`).  "The merged delta's
old side comes from `onto`'s delta, new side from `from`'s delta.  If the
two resulting sides have equal content-id and mode, the merged status
becomes Unmodified ...  if `onto`'s delta for that path is a pending
Deleted, the merged result remains Deleted regardless of what `from`
contributed for the new side"; likewise the header for `git_diff_merge`:
"if the item has a pending DELETE in the middle, then it will show as
deleted". -/
def diff_delta__merge_like_cgit (o f : git_diff_delta) : git_diff_delta :=
  if o.status = .deleted then o
  else
    { old_file := o.old_file, new_file := f.new_file,
      status := classify_sides o.old_file f.new_file,
      similarity := 0, binary := o.binary || f.binary }

/-- Modelled from the spec: `git_diff_merge` as a sorted merge-join over the
two delta lists (spec section 4.2; the C implementation is not under
`src/`).  Paths present in only one list pass through unchanged; paths in
both are resolved by `diff_delta__merge_like_cgit`; an Unmodified result is
dropped unless `INCLUDE_UNMODIFIED` was requested. -/
def git_diff_merge (opts : git_diff_options) :
    List git_diff_delta → List git_diff_delta → List git_diff_delta
  | os, [] => os
  | [], fs => fs
  | o :: os, f :: fs =>
    if diff_delta__path o < diff_delta__path f then
      o :: git_diff_merge opts os (f :: fs)
    else if diff_delta__path f < diff_delta__path o then
      f :: git_diff_merge opts (o :: os) fs
    else
      (if (diff_delta__merge_like_cgit o f).status = .unmodified ∧ ¬ opts.include_unmodified
        then []
        else [diff_delta__merge_like_cgit o f]) ++ git_diff_merge opts os fs
termination_by a b => a.length + b.length

/-- Look a delta up in a diff list by its path-derived comparison key. -/
def find_delta (l : List git_diff_delta) (p : String) : Option git_diff_delta :=
  l.find? (fun d => diff_delta__path d == p)

/-- Every delta of the list carries its comparison key as the path of both
of its sides.  Diff lists built by the Delta Builder have this shape (each
emitted delta stores the joined path on both sides). -/
def PathConsistent (l : List git_diff_delta) : Prop :=
  ∀ d ∈ l, d.old_file.path = some (diff_delta__path d) ∧
    d.new_file.path = some (diff_delta__path d)

/-- The per-path result of the merge-join, as a function of the two per-path
lookups: both present resolve through `diff_delta__merge_like_cgit` (with the
Unmodified drop), one present passes through unchanged. -/
def merge_lookup (opts : git_diff_options) :
    Option git_diff_delta → Option git_diff_delta → Option git_diff_delta
  | some o, some f =>
    if (diff_delta__merge_like_cgit o f).status = .unmodified ∧ ¬ opts.include_unmodified
    then none else some (diff_delta__merge_like_cgit o f)
  | some o, none => some o
  | none, some f => some f
  | none, none => none

def entry_path_lt (a b : git_index_entry) : Prop := a.path < b.path

instance : DecidableRel delta_key_lt :=
  fun a b => inferInstanceAs (Decidable (diff_delta__path a < diff_delta__path b))

instance : DecidableRel entry_path_lt :=
  fun a b => inferInstanceAs (Decidable (a.path < b.path))

instance (l : List git_diff_delta) : Decidable (PathConsistent l) :=
  inferInstanceAs (Decidable (∀ d ∈ l, _ ∧ _))

/-- Number of non-context lines of an edit script (its cost). -/
def edit_cost (s : List git_diff_line) : Nat :=
  s.countP (fun l => l.origin != GIT_DIFF_LINE_CONTEXT)

/-- Modelled from the spec: the default line-based minimal-edit-distance
strategy of the Text Differ (the xdiff engine is not under `src/`).  Equal
leading lines become Context; otherwise the cheaper of deleting the old
line or adding the new line is chosen (spec section 4.3). -/
def xdl_diff_classic : List String → List String → List git_diff_line
  | [], [] => []
  | [], n :: ns => ⟨GIT_DIFF_LINE_ADDITION, n⟩ :: xdl_diff_classic [] ns
  | d :: ds, [] => ⟨GIT_DIFF_LINE_DELETION, d⟩ :: xdl_diff_classic ds []
  | d :: ds, n :: ns =>
    if d = n then ⟨GIT_DIFF_LINE_CONTEXT, d⟩ :: xdl_diff_classic ds ns
    else
      let del := ⟨GIT_DIFF_LINE_DELETION, d⟩ :: xdl_diff_classic ds (n :: ns)
      let add := ⟨GIT_DIFF_LINE_ADDITION, n⟩ :: xdl_diff_classic (d :: ds) ns
      if edit_cost del ≤ edit_cost add then del else add
termination_by a b => a.length + b.length

/-- Split a list at the first occurrence of `x`, when present. -/
def split_at_first (x : String) : List String → Option (List String × List String)
  | [] => none
  | a :: rest =>
    if a = x then some ([], rest)
    else
      match split_at_first x rest with
      | none => none
      | some (l, r) => some (a :: l, r)

/-- The first line of `olds` that occurs exactly once in `olds` and exactly
once in `news`: the anchor of the patience strategy. -/
def find_unique_common (olds news : List String) : Option String :=
  olds.find? (fun x => olds.count x == 1 && news.count x == 1)

/-- Modelled from the spec: the Patience strategy of the Text Differ (the
xdiff patience engine is not under `src/`).  It "first anchors on lines
that appear exactly once in each side", splits both buffers at the anchor,
recurses on the two halves, and falls back to the default strategy when no
anchor exists (spec section 4.3). -/
def xdl_diff_patience (olds news : List String) : List git_diff_line :=
  match find_unique_common olds news with
  | none => xdl_diff_classic olds news
  | some x =>
    match h1 : split_at_first x olds, h2 : split_at_first x news with
    | some (ol, o2), some (nl, n2) =>
      xdl_diff_patience ol nl ++ ⟨GIT_DIFF_LINE_CONTEXT, x⟩ :: xdl_diff_patience o2 n2
    | _, _ => xdl_diff_classic olds news
termination_by olds.length + news.length
decreasing_by
  all_goals
    have hlen : ∀ (y : String) (xs l r : List String),
        split_at_first y xs = some (l, r) → xs.length = l.length + r.length + 1 := by
      intro y xs
      induction xs with
      | nil => intro l r h; simp [split_at_first] at h
      | cons a rest ih =>
        intro l r h
        by_cases ha : a = y
        · rw [split_at_first, if_pos ha] at h
          cases h
          simp
        · rw [split_at_first, if_neg ha] at h
          cases hs : split_at_first y rest with
          | none => rw [hs] at h; cases h
          | some lr =>
            rw [hs] at h
            cases lr with
            | mk l2 r2 =>
              simp at h
              rcases h with ⟨hl, hr⟩
              subst hl
              subst hr
              simp [ih l2 r2 hs]
              omega
  all_goals
    have e1 := hlen x olds _ _ h1
    have e2 := hlen x news _ _ h2
    omega

/-- The old-side projection of an edit script: contents of its Context and
Deletion lines, in order. -/
def restrict_old (s : List git_diff_line) : List String :=
  (s.filter (fun l => l.origin == GIT_DIFF_LINE_CONTEXT ||
    l.origin == GIT_DIFF_LINE_DELETION)).map git_diff_line.content

/-- The new-side projection of an edit script: contents of its Context and
Addition lines, in order. -/
def restrict_new (s : List git_diff_line) : List String :=
  (s.filter (fun l => l.origin == GIT_DIFF_LINE_CONTEXT ||
    l.origin == GIT_DIFF_LINE_ADDITION)).map git_diff_line.content

/-- Modelled from the spec: strategy selection of the Text Differ — the
`GIT_DIFF_PATIENCE` flag selects the patience strategy, otherwise the
default minimal-edit-distance strategy runs (spec section 4.3). -/
def xdl_diff (opts : git_diff_options) (olds news : List String) : List git_diff_line :=
  if opts.patience then xdl_diff_patience olds news else xdl_diff_classic olds news

/-- The lines of a text buffer, split on line terminators. -/
def git_buffer_lines (s : String) : List String := s.splitOn "\n"

/-- Hunk and line callbacks are skipped for a delta when it is binary or
when its two sides have the same content id, i.e. its only change is a
file mode change (header: "these callbacks will not be invoked for binary
files on the diff list or for files whose only changed is a file mode
change"). -/
def skip_hunks (d : git_diff_delta) : Bool :=
  d.binary || (d.old_file.oid == d.new_file.oid)

/-- One callback invocation observed during a traversal: the file, hunk and
line visits with the data each callback receives. -/
inductive DiffEvent where
  | file (delta : git_diff_delta)
  | hunk (delta : git_diff_delta) (range : git_diff_range) (header : String)
  | line (delta : git_diff_delta) (origin : Char) (content : String)
deriving DecidableEq, Repr

/-- The delta an event belongs to. -/
def DiffEvent.delta : DiffEvent → git_diff_delta
  | .file d => d
  | .hunk d _ _ => d
  | .line d _ _ => d

/-- Whether an event is a hunk or line visit (rather than a file visit). -/
def DiffEvent.isHunkOrLine : DiffEvent → Bool
  | .file _ => false
  | .hunk _ _ _ => true
  | .line _ _ _ => true

/-- Modelled from the spec: the per-line stage of `git_diff_foreach` (the C
implementation is not under `src/`).  Lines are reported through the line
callback when it is supplied; a non-zero return aborts with `GIT_EUSER`. -/
def foreach_lines (line_cb : Option (git_diff_delta → Char → String → Int))
    (d : git_diff_delta) : List git_diff_line → Int × List DiffEvent
  | [] => (0, [])
  | l :: rest =>
    match line_cb with
    | none => (0, [])
    | some cb =>
      if cb d l.origin l.content ≠ 0 then
        (GIT_EUSER, [DiffEvent.line d l.origin l.content])
      else
        let t := foreach_lines line_cb d rest
        (t.1, DiffEvent.line d l.origin l.content :: t.2)

/-- Modelled from the spec: the per-hunk stage of `git_diff_foreach`.  Each
hunk is reported through the hunk callback, then its lines through the line
callback; any non-zero return aborts the walk with `GIT_EUSER`. -/
def foreach_hunks (hunk_cb : Option (git_diff_delta → git_diff_range → String → Int))
    (line_cb : Option (git_diff_delta → Char → String → Int))
    (d : git_diff_delta) : List git_hunk → Int × List DiffEvent
  | [] => (0, [])
  | h :: rest =>
    let hstep : Int × List DiffEvent :=
      match hunk_cb with
      | none => (0, [])
      | some cb =>
        if cb d h.range h.header ≠ 0 then
          (GIT_EUSER, [DiffEvent.hunk d h.range h.header])
        else (0, [DiffEvent.hunk d h.range h.header])
    if hstep.1 ≠ 0 then hstep
    else
      let lres := foreach_lines line_cb d h.lines
      if lres.1 ≠ 0 then (lres.1, hstep.2 ++ lres.2)
      else
        let hres := foreach_hunks hunk_cb line_cb d rest
        (hres.1, hstep.2 ++ lres.2 ++ hres.2)

/-- Modelled from the spec and the header doc of `git_diff_foreach` (the C
implementation is not under `src/`): walk every delta; invoke the file
callback; when a hunk or line callback is supplied and the delta is neither
binary nor a pure mode change, run the text differ (`differ` stands for the
lazily invoked Text Differ, which may fail with a negative status) and
report hunks and lines; any callback returning non-zero terminates the
iteration with `GIT_EUSER`.  The result is the status together with the
sequence of callback invocations made. -/
def git_diff_foreach (differ : git_diff_delta → Except Int (List git_hunk))
    (deltas : List git_diff_delta)
    (file_cb : git_diff_delta → Int)
    (hunk_cb : Option (git_diff_delta → git_diff_range → String → Int))
    (line_cb : Option (git_diff_delta → Char → String → Int)) :
    Int × List DiffEvent :=
  match deltas with
  | [] => (0, [])
  | d :: rest =>
    if file_cb d ≠ 0 then (GIT_EUSER, [DiffEvent.file d])
    else if (hunk_cb.isSome || line_cb.isSome) && !(skip_hunks d) then
      match differ d with
      | .error e => (e, [DiffEvent.file d])
      | .ok hs =>
        let hres := foreach_hunks hunk_cb line_cb d hs
        if hres.1 ≠ 0 then (hres.1, DiffEvent.file d :: hres.2)
        else
          let frest := git_diff_foreach differ rest file_cb hunk_cb line_cb
          (frest.1, DiffEvent.file d :: (hres.2 ++ frest.2))
    else
      let frest := git_diff_foreach differ rest file_cb hunk_cb line_cb
      (frest.1, DiffEvent.file d :: frest.2)

/-- The return value the callbacks gave for an event of the traversal. -/
def event_ret (file_cb : git_diff_delta → Int)
    (hunk_cb : Option (git_diff_delta → git_diff_range → String → Int))
    (line_cb : Option (git_diff_delta → Char → String → Int)) :
    DiffEvent → Int
  | .file d => file_cb d
  | .hunk d r h =>
    match hunk_cb with
    | some cb => cb d r h
    | none => 0
  | .line d o c =>
    match line_cb with
    | some cb => cb d o c
    | none => 0

/-- Result of a cursor-advancing iterator operation: a value, the
exhausted sentinel (`GIT_ITEROVER` in the header), or an error status. -/
inductive IterResult (α : Type) where
  | ok (value : α)
  | iterover
  | err (code : Int)
deriving DecidableEq, Repr

/-- Modelled from the spec: the iterator's cursor (spec section 3:
`(file_index, per-file cached hunk list or "not yet computed", hunk_index,
line_index)`; the C `git_diff_iterator` is not under `src/`).  `remaining`
holds the files not yet handed out, `current` the file being examined;
`hunk_cache` is `none` until the text diff for the current file has run,
then holds the hunks not yet returned; `cur_lines` holds the unreturned
lines of the current hunk.  `file_index` counts fully consumed files and
`diff_length` the total, for the progress metric. -/
structure git_diff_iterator where
  diff_length : Nat
  file_index : Nat
  remaining : List git_diff_delta
  current : Option git_diff_delta
  hunk_cache : Option (List git_hunk)
  cur_lines : List git_diff_line
deriving DecidableEq, Repr

/-- Modelled from the spec: `git_diff_iterator_new` over a diff list. -/
def git_diff_iterator_new (deltas : List git_diff_delta) : git_diff_iterator :=
  { diff_length := deltas.length, file_index := 0, remaining := deltas,
    current := none, hunk_cache := none, cur_lines := [] }

/-- Modelled from the spec: `git_diff_iterator_next_file`.  Moving to the
next file finishes the file being examined (advancing `file_index`), resets
the per-file hunk state, and returns the next delta, or the exhausted
sentinel after the last file. -/
def git_diff_iterator_next_file (it : git_diff_iterator) :
    IterResult git_diff_delta × git_diff_iterator :=
  let fi := it.file_index + (if it.current.isSome then 1 else 0)
  match it.remaining with
  | [] =>
    (.iterover,
      { it with current := none, file_index := fi, hunk_cache := none, cur_lines := [] })
  | d :: rest =>
    (.ok d,
      { it with remaining := rest, current := some d, file_index := fi,
                hunk_cache := none, cur_lines := [] })

/-- The hunks the lazy Text Differ yields for a delta: none at all for a
binary or mode-change-only delta (the short-circuit), otherwise whatever
the differ computes. -/
def hunks_for (differ : git_diff_delta → Except Int (List git_hunk))
    (d : git_diff_delta) : Except Int (List git_hunk) :=
  if skip_hunks d then .ok [] else differ d

/-- Modelled from the spec: `git_diff_iterator_next_hunk`.  The first call
for a file runs the Text Differ and caches the result; subsequent calls
replay the cache.  Returns the exhausted sentinel when the current file has
no further hunks, and an error status only when the differ fails. -/
def git_diff_iterator_next_hunk (differ : git_diff_delta → Except Int (List git_hunk))
    (it : git_diff_iterator) : IterResult git_hunk × git_diff_iterator :=
  match it.current with
  | none => (.iterover, it)
  | some d =>
    let computed : Except Int (List git_hunk) :=
      match it.hunk_cache with
      | some hs => .ok hs
      | none => hunks_for differ d
    match computed with
    | .error e => (.err e, it)
    | .ok hs =>
      match hs with
      | [] => (.iterover, { it with hunk_cache := some [], cur_lines := [] })
      | h :: rest => (.ok h, { it with hunk_cache := some rest, cur_lines := h.lines })

/-- Modelled from the spec: `git_diff_iterator_next_line` replays the lines
of the current hunk, then reports the exhausted sentinel. -/
def git_diff_iterator_next_line (it : git_diff_iterator) :
    IterResult git_diff_line × git_diff_iterator :=
  match it.cur_lines with
  | [] => (.iterover, it)
  | l :: rest => (.ok l, { it with cur_lines := rest })

/-- Modelled from the spec: `git_diff_iterator_progress` is
`file_index / total_files` (spec section 4.4), as a rational number in
place of the C float. -/
def git_diff_iterator_progress (it : git_diff_iterator) : ℚ :=
  (it.file_index : ℚ) / (it.diff_length : ℚ)

/-- The invariant linking the cursor counters of a reachable iterator:
consumed files plus the current file plus the files still to hand out
account for the whole diff list. -/
def iter_inv (it : git_diff_iterator) : Prop :=
  it.file_index + (if it.current.isSome then 1 else 0) + it.remaining.length =
    it.diff_length

/-- Pull every line of the current hunk out of the iterator (fuelled). -/
def iter_lines_drive (d : git_diff_delta) :
    Nat → git_diff_iterator → List DiffEvent × git_diff_iterator
  | 0, it => ([], it)
  | fuel + 1, it =>
    match git_diff_iterator_next_line it with
    | (.ok l, it') =>
      let t := iter_lines_drive d fuel it'
      (DiffEvent.line d l.origin l.content :: t.1, t.2)
    | (_, it') => ([], it')

/-- Pull every hunk of the current file, and each hunk's lines, out of the
iterator (fuelled). -/
def iter_hunks_drive (differ : git_diff_delta → Except Int (List git_hunk))
    (d : git_diff_delta) :
    Nat → git_diff_iterator → List DiffEvent × git_diff_iterator
  | 0, it => ([], it)
  | fuel + 1, it =>
    match git_diff_iterator_next_hunk differ it with
    | (.ok h, it') =>
      let lts := iter_lines_drive d (h.lines.length + 1) it'
      let t := iter_hunks_drive differ d fuel lts.2
      (DiffEvent.hunk d h.range h.header :: (lts.1 ++ t.1), t.2)
    | (_, it') => ([], it')

/-- The number of hunks the differ will yield for a file (zero on failure),
used to provide sufficient fuel to the hunk loop. -/
def hunk_count (differ : git_diff_delta → Except Int (List git_hunk))
    (d : git_diff_delta) : Nat :=
  match hunks_for differ d with
  | .ok hs => hs.length
  | .error _ => 0

/-- Pull every file, hunk and line out of the iterator (fuelled). -/
def iter_files_drive (differ : git_diff_delta → Except Int (List git_hunk)) :
    Nat → git_diff_iterator → List DiffEvent × git_diff_iterator
  | 0, it => ([], it)
  | fuel + 1, it =>
    match git_diff_iterator_next_file it with
    | (.ok d, it') =>
      let hts := iter_hunks_drive differ d (hunk_count differ d + 1) it'
      let t := iter_files_drive differ fuel hts.2
      (DiffEvent.file d :: (hts.1 ++ t.1), t.2)
    | (_, it') => ([], it')

/-- The full pull-based traversal of a diff list: drive a fresh iterator
with `next_file` / `next_hunk` / `next_line` until exhaustion and record
every visit. -/
def git_diff_iterator_walk (differ : git_diff_delta → Except Int (List git_hunk))
    (deltas : List git_diff_delta) : List DiffEvent :=
  (iter_files_drive differ (deltas.length + 1) (git_diff_iterator_new deltas)).1

/-- The canonical visit sequence of one delta: its file visit followed, for
a non-binary non-mode-only delta, by each hunk and that hunk's lines. -/
def delta_trace (differ : git_diff_delta → Except Int (List git_hunk))
    (d : git_diff_delta) : List DiffEvent :=
  DiffEvent.file d ::
    (match hunks_for differ d with
     | .ok hs =>
       ((hs.map (fun h => DiffEvent.hunk d h.range h.header ::
         h.lines.map (fun l => DiffEvent.line d l.origin l.content))).flatten)
     | .error _ => [])

/-- The canonical visit sequence of a whole diff list. -/
def trace_of (differ : git_diff_delta → Except Int (List git_hunk))
    (deltas : List git_diff_delta) : List DiffEvent :=
  (deltas.map (delta_trace differ)).flatten

/-- A blob for the direct blob diff entry point: content id, text lines,
and whether the content is binary (contains null bytes / binary hint). -/
structure git_blob where
  oid : Nat
  lines : List String
  binary : Bool
deriving DecidableEq, Repr

/-- One side of the synthetic delta of `git_diff_blobs`: per the header,
"`mode` will be set to 0, `path` will be set to NULL.  When dealing with a
NULL blob, `oid` will be set to 0". -/
def blob_side (b : Option git_blob) : git_diff_file :=
  match b with
  | some blob => { oid := blob.oid, path := none, size := blob.lines.length, mode := 0 }
  | none => { oid := 0, path := none, size := 0, mode := 0 }

/-- Modelled from the spec and the header doc of `git_diff_blobs` (the C
implementation is not under `src/`): run a direct text diff on two blobs
with no diff list produced.  "When at least one of the blobs being dealt
with is binary, the `git_diff_delta` binary attribute will be set to 1 and
no call to the hunk_cb nor line_cb will be made." -/
def blobs_binary (old_blob new_blob : Option git_blob) : Bool :=
  (match old_blob with | some b => b.binary | none => false) ||
  (match new_blob with | some b => b.binary | none => false)

def git_diff_blobs (old_blob new_blob : Option git_blob) (opts : git_diff_options)
    (file_cb : git_diff_delta → Int)
    (hunk_cb : Option (git_diff_delta → git_diff_range → String → Int))
    (line_cb : Option (git_diff_delta → Char → String → Int)) :
    Int × List DiffEvent :=
  let oldf := blob_side old_blob
  let newf := blob_side new_blob
  let bin := blobs_binary old_blob new_blob
  let delta : git_diff_delta :=
    { old_file := oldf, new_file := newf, status := classify_sides oldf newf,
      similarity := 0, binary := bin }
  if file_cb delta ≠ 0 then (GIT_EUSER, [DiffEvent.file delta])
  else if bin then (0, [DiffEvent.file delta])
  else
    let script := xdl_diff opts
      (match old_blob with | some b => b.lines | none => [])
      (match new_blob with | some b => b.lines | none => [])
    let hunks : List git_hunk :=
      if script.isEmpty then []
      else [{ range := { old_start := 1, old_lines := (restrict_old script).length,
                         new_start := 1, new_lines := (restrict_new script).length },
              header := "@@ @@", lines := script }]
    let hres := foreach_hunks hunk_cb line_cb delta hunks
    (hres.1, DiffEvent.file delta :: hres.2)

/-- One line-callback invocation of a formatter. -/
structure PrintEvent where
  delta : git_diff_delta
  origin : Char
  content : String
deriving DecidableEq, Repr

/-- The status letter of a compact listing. -/
def delta_status_char : git_delta_t → Char
  | .added => 'A'
  | .deleted => 'D'
  | .modified => 'M'
  | .renamed => 'R'
  | .copied => 'C'
  | .ignored => 'I'
  | .untracked => '?'
  | .unmodified => ' '

/-- The synthetic status line `print_compact` emits per delta. -/
def compact_line (d : git_diff_delta) : String :=
  (delta_status_char d.status).toString ++ "\t" ++ diff_delta__path d ++ "\n"

/-- Modelled from the spec: `git_diff_print_compact` (the C implementation
is not under `src/`) drives the file level only, emitting one `FileHeader`
origin line per delta; a non-zero callback return aborts with
`GIT_EUSER`. -/
def git_diff_print_compact (deltas : List git_diff_delta)
    (print_cb : git_diff_delta → Char → String → Int) : Int × List PrintEvent :=
  match deltas with
  | [] => (0, [])
  | d :: rest =>
    if print_cb d GIT_DIFF_LINE_FILE_HDR (compact_line d) ≠ 0 then
      (GIT_EUSER, [⟨d, GIT_DIFF_LINE_FILE_HDR, compact_line d⟩])
    else
      let t := git_diff_print_compact rest print_cb
      (t.1, ⟨d, GIT_DIFF_LINE_FILE_HDR, compact_line d⟩ :: t.2)

/-- The synthetic file header line of `print_patch`, with the default
"a"/"b" path name roots. -/
def patch_file_header (d : git_diff_delta) : String :=
  "diff --git a/" ++ diff_delta__path d ++ " b/" ++ diff_delta__path d ++ "\n"

/-- The marker line `print_patch` emits in place of hunks for binary
deltas. -/
def binary_marker (d : git_diff_delta) : String :=
  "Binary files differ\n"

/-- Modelled from the spec: the per-line stage of `git_diff_print_patch`. -/
def print_patch_lines (print_cb : git_diff_delta → Char → String → Int)
    (d : git_diff_delta) : List git_diff_line → Int × List PrintEvent
  | [] => (0, [])
  | l :: rest =>
    if print_cb d l.origin l.content ≠ 0 then
      (GIT_EUSER, [⟨d, l.origin, l.content⟩])
    else
      let t := print_patch_lines print_cb d rest
      (t.1, ⟨d, l.origin, l.content⟩ :: t.2)

/-- Modelled from the spec: the per-hunk stage of `git_diff_print_patch`: a
`HunkHeader` origin line carrying the hunk header, then the hunk's lines. -/
def print_patch_hunks (print_cb : git_diff_delta → Char → String → Int)
    (d : git_diff_delta) : List git_hunk → Int × List PrintEvent
  | [] => (0, [])
  | h :: rest =>
    if print_cb d GIT_DIFF_LINE_HUNK_HDR h.header ≠ 0 then
      (GIT_EUSER, [⟨d, GIT_DIFF_LINE_HUNK_HDR, h.header⟩])
    else
      let lres := print_patch_lines print_cb d h.lines
      if lres.1 ≠ 0 then (lres.1, ⟨d, GIT_DIFF_LINE_HUNK_HDR, h.header⟩ :: lres.2)
      else
        let hres := print_patch_hunks print_cb d rest
        (hres.1, ⟨d, GIT_DIFF_LINE_HUNK_HDR, h.header⟩ :: (lres.2 ++ hres.2))

/-- Modelled from the spec: `git_diff_print_patch` (the C implementation is
not under `src/`): per delta a `FileHeader` line, then a `BinaryMarker`
line for binary deltas, or the hunks and lines of the text diff; a
non-zero callback return aborts with `GIT_EUSER`. -/
def git_diff_print_patch (differ : git_diff_delta → Except Int (List git_hunk))
    (deltas : List git_diff_delta)
    (print_cb : git_diff_delta → Char → String → Int) : Int × List PrintEvent :=
  match deltas with
  | [] => (0, [])
  | d :: rest =>
    if print_cb d GIT_DIFF_LINE_FILE_HDR (patch_file_header d) ≠ 0 then
      (GIT_EUSER, [⟨d, GIT_DIFF_LINE_FILE_HDR, patch_file_header d⟩])
    else if d.binary then
      if print_cb d GIT_DIFF_LINE_BINARY (binary_marker d) ≠ 0 then
        (GIT_EUSER, [⟨d, GIT_DIFF_LINE_FILE_HDR, patch_file_header d⟩,
          ⟨d, GIT_DIFF_LINE_BINARY, binary_marker d⟩])
      else
        let t := git_diff_print_patch differ rest print_cb
        (t.1, ⟨d, GIT_DIFF_LINE_FILE_HDR, patch_file_header d⟩ ::
          ⟨d, GIT_DIFF_LINE_BINARY, binary_marker d⟩ :: t.2)
    else if skip_hunks d then
      let t := git_diff_print_patch differ rest print_cb
      (t.1, ⟨d, GIT_DIFF_LINE_FILE_HDR, patch_file_header d⟩ :: t.2)
    else
      match differ d with
      | .error e => (e, [⟨d, GIT_DIFF_LINE_FILE_HDR, patch_file_header d⟩])
      | .ok hs =>
        let hres := print_patch_hunks print_cb d hs
        if hres.1 ≠ 0 then
          (hres.1, ⟨d, GIT_DIFF_LINE_FILE_HDR, patch_file_header d⟩ :: hres.2)
        else
          let t := git_diff_print_patch differ rest print_cb
          (t.1, ⟨d, GIT_DIFF_LINE_FILE_HDR, patch_file_header d⟩ :: (hres.2 ++ t.2))

/-- The return value the print callback gave for a formatter event. -/
def print_ret (print_cb : git_diff_delta → Char → String → Int)
    (e : PrintEvent) : Int :=
  print_cb e.delta e.origin e.content

def sample_opts : git_diff_options := { reverse := false, include_unmodified := false, patience := false }

def sample_mod_delta : git_diff_delta :=
  { old_file := { oid := 21, path := some "f.txt", size := 4, mode := 33188 },
    new_file := { oid := 22, path := some "f.txt", size := 8, mode := 33188 },
    status := .modified, similarity := 0, binary := false }

def sample_mode_delta : git_diff_delta :=
  { old_file := { oid := 77, path := some "m.txt", size := 4, mode := 33188 },
    new_file := { oid := 77, path := some "m.txt", size := 4, mode := 33261 },
    status := .modified, similarity := 0, binary := false }

def sample_hunk : git_hunk :=
  { range := { old_start := 1, old_lines := 1, new_start := 1, new_lines := 2 },
    header := "@@ -1 +1,2 @@", lines := [⟨' ', "foo"⟩, ⟨'+', "bar"⟩] }

def sample_differ : git_diff_delta → Except Int (List git_hunk) :=
  fun _ => .ok [sample_hunk]

def zero_file_cb : git_diff_delta → Int := fun _ => 0

def zero_hunk_cb : git_diff_delta → git_diff_range → String → Int := fun _ _ _ => 0

def zero_line_cb : git_diff_delta → Char → String → Int := fun _ _ _ => 0

def sample_blob : git_blob := { oid := 31, lines := ["data"], binary := true }

def sample_blobs_delta : git_diff_delta :=
  { old_file := blob_side (some sample_blob), new_file := blob_side none,
    status := classify_sides (blob_side (some sample_blob)) (blob_side none),
    similarity := 0, binary := true }

/-- Every recorded callback invocation returned zero. -/
def run_clean {α : Type} (r : α → Int) (tr : List α) : Prop :=
  ∀ e ∈ tr, r e = 0

/-- The traversal was aborted by a callback: the status is the user-abort
code, the last recorded invocation returned non-zero, and every earlier
one returned zero — no callback of any kind fires after the abort. -/
def run_user_abort {α : Type} (r : α → Int) (st : Int) (tr : List α) : Prop :=
  st = GIT_EUSER ∧
    ∃ pre bad, tr = pre ++ [bad] ∧ r bad ≠ 0 ∧ ∀ e ∈ pre, r e = 0

def one_file_cb : git_diff_delta → Int := fun _ => 1

def one_print_cb : git_diff_delta → Char → String → Int := fun _ _ _ => 1

instance (it : git_diff_iterator) : Decidable (iter_inv it) :=
  inferInstanceAs (Decidable (_ = _))

theorem from_one_true_added (u p : Bool) (e : git_index_entry) :
    diff_delta__from_one ⟨true, u, p⟩ .added e =
      (diff_delta__from_one ⟨false, u, p⟩ .added e).reversed := rfl

theorem from_one_true_deleted (u p : Bool) (e : git_index_entry) :
    diff_delta__from_one ⟨true, u, p⟩ .deleted e =
      (diff_delta__from_one ⟨false, u, p⟩ .deleted e).reversed := rfl

theorem from_one_added_reversed (u p : Bool) (e : git_index_entry) :
    (diff_delta__from_one ⟨false, u, p⟩ .added e).reversed =
      diff_delta__from_one ⟨false, u, p⟩ .deleted e := rfl

theorem from_one_deleted_reversed (u p : Bool) (e : git_index_entry) :
    (diff_delta__from_one ⟨false, u, p⟩ .deleted e).reversed =
      diff_delta__from_one ⟨false, u, p⟩ .added e := rfl

theorem from_two_true_modified (u p : Bool) (d n : git_index_entry) :
    diff_delta__from_two ⟨true, u, p⟩ .modified d n =
      (diff_delta__from_two ⟨false, u, p⟩ .modified d n).reversed := rfl

theorem from_two_true_unmodified (u p : Bool) (d n : git_index_entry) :
    diff_delta__from_two ⟨true, u, p⟩ .unmodified d n =
      (diff_delta__from_two ⟨false, u, p⟩ .unmodified d n).reversed := rfl

theorem from_two_modified_reversed (u p : Bool) (d n : git_index_entry) :
    (diff_delta__from_two ⟨false, u, p⟩ .modified d n).reversed =
      diff_delta__from_two ⟨false, u, p⟩ .modified n d := rfl

theorem from_two_unmodified_reversed (u p : Bool) (d n : git_index_entry) :
    (diff_delta__from_two ⟨false, u, p⟩ .unmodified d n).reversed =
      diff_delta__from_two ⟨false, u, p⟩ .unmodified n d := rfl

/-- The per-delta Reverse transformation is an involution. -/
theorem reversed_reversed (d : git_diff_delta) : d.reversed.reversed = d := by
  cases d with
  | mk o n s sim b => cases s <;> rfl

/-- Building with the Reverse flag set applies exactly the per-delta swap to
every delta of the unreversed build of the same inputs. -/
theorem build_reverse_eq_map_reversed (u p : Bool)
    (A B : List git_index_entry) :
    git_diff__from_entries ⟨true, u, p⟩ A B =
      List.map git_diff_delta.reversed (git_diff__from_entries ⟨false, u, p⟩ A B) := by
  induction A, B using git_diff__from_entries.induct ⟨true, u, p⟩ with
  | case1 => simp [git_diff__from_entries]
  | case2 n ns ih =>
    simp only [git_diff__from_entries, List.map_cons, ih, from_one_true_added]
  | case3 d ds ih =>
    simp only [git_diff__from_entries, List.map_cons, ih, from_one_true_deleted]
  | case4 d ds n ns h ih =>
    simp only [git_diff__from_entries, h, if_true, List.map_cons, ih, from_one_true_deleted]
  | case5 d ds n ns h1 h2 ih =>
    simp only [git_diff__from_entries, h1, h2, if_false, if_true, List.map_cons, ih,
      from_one_true_added]
  | case6 d ds n ns h1 h2 ih =>
    simp only [git_diff__from_entries, h1, h2, List.map_append, ih]
    by_cases hc : d.oid = n.oid ∧ d.mode = n.mode
    · by_cases hu : u
      · simp [hc, hu, from_two_true_unmodified]
      · simp [hc, hu]
    · simp [hc, from_two_true_modified]

/-- Swapping the two input sequences of an unreversed build applies exactly
the per-delta swap to every delta. -/
theorem build_swap_inputs (u p : Bool) (A B : List git_index_entry) :
    git_diff__from_entries ⟨false, u, p⟩ B A =
      List.map git_diff_delta.reversed (git_diff__from_entries ⟨false, u, p⟩ A B) := by
  induction A, B using git_diff__from_entries.induct ⟨false, u, p⟩ with
  | case1 => simp [git_diff__from_entries]
  | case2 n ns ih =>
    simp only [git_diff__from_entries, List.map_cons, ih, from_one_added_reversed]
  | case3 d ds ih =>
    simp only [git_diff__from_entries, List.map_cons, ih, from_one_deleted_reversed]
  | case4 d ds n ns h ih =>
    have h' : ¬ n.path < d.path := lt_asymm h
    simp only [git_diff__from_entries, h, h', if_true, if_false, List.map_cons, ih,
      from_one_deleted_reversed]
  | case5 d ds n ns h1 h2 ih =>
    simp only [git_diff__from_entries, h1, h2, if_false, if_true, List.map_cons, ih,
      from_one_added_reversed]
  | case6 d ds n ns h1 h2 ih =>
    have hc' : (n.oid = d.oid ∧ n.mode = d.mode) ↔ (d.oid = n.oid ∧ d.mode = n.mode) := by
      constructor <;> rintro ⟨x, y⟩ <;> exact ⟨x.symm, y.symm⟩
    simp only [git_diff__from_entries, h1, h2, if_false, List.map_append, ih]
    by_cases hc : d.oid = n.oid ∧ d.mode = n.mode
    · by_cases hu : u
      · simp [hc, hc', hu, from_two_unmodified_reversed]
      · simp [hc, hc', hu]
    · simp [hc, hc', from_two_modified_reversed]

/-- C2: for any two ordered entry sequences `A` and `B`, building `(B, A)`
with the `GIT_DIFF_REVERSE` flag set differs from building `(B, A)` without
it exactly by exchanging every Added status with Deleted and swapping the
old and new sides of every delta; with that exchange applied, the resulting
delta sequence is identical to the one obtained by building `(A, B)`
without the Reverse flag. -/
theorem git_diff_reverse_flag_swaps_build (u p : Bool)
    (A B : List git_index_entry) :
    git_diff__from_entries ⟨true, u, p⟩ B A =
      List.map git_diff_delta.reversed (git_diff__from_entries ⟨false, u, p⟩ B A) ∧
    git_diff__from_entries ⟨true, u, p⟩ B A =
      git_diff__from_entries ⟨false, u, p⟩ A B := by
  refine ⟨build_reverse_eq_map_reversed u p B A, ?_⟩
  rw [build_reverse_eq_map_reversed u p B A, build_swap_inputs u p A B,
    List.map_map]
  have h : git_diff_delta.reversed ∘ git_diff_delta.reversed = id :=
    funext reversed_reversed
  rw [h, List.map_id]

/-- The merged delta for a path keeps that path as its comparison key. -/
theorem merge_like_cgit_path (o f : git_diff_delta)
    (ho : o.old_file.path = some (diff_delta__path o)) :
    diff_delta__path (diff_delta__merge_like_cgit o f) = diff_delta__path o := by
  unfold diff_delta__merge_like_cgit
  split
  · rfl
  · generalize hk : diff_delta__path o = k at ho ⊢
    simp only [diff_delta__path, ho, Option.getD_some]

theorem find_delta_cons (d : git_diff_delta) (l : List git_diff_delta) (q : String) :
    find_delta (d :: l) q =
      if diff_delta__path d = q then some d else find_delta l q := by
  by_cases h : diff_delta__path d = q <;> simp [find_delta, h]

theorem find_delta_eq_none (l : List git_diff_delta) (q : String)
    (h : ∀ d ∈ l, diff_delta__path d ≠ q) : find_delta l q = none := by
  simp only [find_delta, List.find?_eq_none, beq_iff_eq]
  exact h

theorem sorted_cons_key {x : git_diff_delta} {l : List git_diff_delta}
    (h : List.Sorted delta_key_lt (x :: l)) :
    (∀ y ∈ l, diff_delta__path x < diff_delta__path y) ∧
      List.Sorted delta_key_lt l := by
  rw [List.sorted_cons] at h
  exact h

theorem path_consistent_cons {x : git_diff_delta} {l : List git_diff_delta}
    (h : PathConsistent (x :: l)) :
    (x.old_file.path = some (diff_delta__path x) ∧
      x.new_file.path = some (diff_delta__path x)) ∧ PathConsistent l :=
  ⟨h x (List.mem_cons_self x l), fun d hd => h d (List.mem_cons_of_mem x hd)⟩

theorem merge_key_mem (opts : git_diff_options) :
    ∀ (l1 l2 : List git_diff_delta), PathConsistent l1 →
      ∀ x ∈ git_diff_merge opts l1 l2,
        diff_delta__path x ∈ l1.map diff_delta__path ∨
        diff_delta__path x ∈ l2.map diff_delta__path := by
  intro l1 l2
  induction l1, l2 using git_diff_merge.induct opts with
  | case1 os =>
    intro pc x hx
    simp only [git_diff_merge] at hx
    exact Or.inl (List.mem_map_of_mem diff_delta__path hx)
  | case2 fs =>
    intro pc x hx
    simp only [git_diff_merge] at hx
    exact Or.inr (List.mem_map_of_mem diff_delta__path hx)
  | case3 o os f fs h ih =>
    intro pc x hx
    simp only [git_diff_merge, h, if_true] at hx
    rcases List.mem_cons.mp hx with hx0 | hx1
    · subst hx0
      exact Or.inl (by simp)
    · rcases ih (path_consistent_cons pc).2 x hx1 with h1 | h2
      · exact Or.inl (List.mem_cons_of_mem _ h1)
      · exact Or.inr h2
  | case4 o os f fs h1 h2 ih =>
    intro pc x hx
    simp only [git_diff_merge, h1, h2, if_false, if_true] at hx
    rcases List.mem_cons.mp hx with hx0 | hx1
    · subst hx0
      exact Or.inr (by simp)
    · rcases ih pc x hx1 with ha | hb
      · exact Or.inl ha
      · exact Or.inr (List.mem_cons_of_mem _ hb)
  | case5 o os f fs h1 h2 ih =>
    intro pc x hx
    simp only [git_diff_merge, h1, h2, if_false, List.mem_append] at hx
    rcases hx with hm | hx1
    · left
      have hkm : diff_delta__path (diff_delta__merge_like_cgit o f) = diff_delta__path o :=
        merge_like_cgit_path o f (path_consistent_cons pc).1.1
      have hx2 : x = diff_delta__merge_like_cgit o f := by
        rcases Classical.em ((diff_delta__merge_like_cgit o f).status = .unmodified ∧
            ¬ opts.include_unmodified) with hdrop | hdrop
        · rw [if_pos hdrop] at hm
          simp at hm
        · rw [if_neg hdrop] at hm
          simpa using hm
      subst hx2
      simp [hkm]
    · rcases ih (path_consistent_cons pc).2 x hx1 with ha | hb
      · exact Or.inl (List.mem_cons_of_mem _ ha)
      · exact Or.inr (List.mem_cons_of_mem _ hb)

theorem delta_key_lt_def (a b : git_diff_delta) :
    delta_key_lt a b ↔ diff_delta__path a < diff_delta__path b := Iff.rfl

theorem git_diff_merge_sorted_aux (opts : git_diff_options) :
    ∀ (l1 l2 : List git_diff_delta), PathConsistent l1 →
      List.Sorted delta_key_lt l1 → List.Sorted delta_key_lt l2 →
      List.Sorted delta_key_lt (git_diff_merge opts l1 l2) := by
  intro l1 l2
  induction l1, l2 using git_diff_merge.induct opts with
  | case1 os => intro pc s1 s2; simpa [git_diff_merge] using s1
  | case2 fs => intro pc s1 s2; simpa [git_diff_merge] using s2
  | case3 o os f fs h ih =>
    intro pc s1 s2
    simp only [git_diff_merge, h, if_true]
    rw [List.sorted_cons]
    refine ⟨?_, ih (path_consistent_cons pc).2 (sorted_cons_key s1).2 s2⟩
    intro y hy
    rcases merge_key_mem opts os (f :: fs) (path_consistent_cons pc).2 y hy with hk | hk
    · rcases List.mem_map.mp hk with ⟨z, hz, hzk⟩
      have hlt := (sorted_cons_key s1).1 z hz
      exact (delta_key_lt_def o y).mpr (hzk ▸ hlt)
    · rcases List.mem_map.mp hk with ⟨z, hz, hzk⟩
      rcases List.mem_cons.mp hz with hz1 | hz2
      · subst hz1
        exact (delta_key_lt_def o y).mpr (hzk ▸ h)
      · have hf := (sorted_cons_key s2).1 z hz2
        exact (delta_key_lt_def o y).mpr (hzk ▸ lt_trans h hf)
  | case4 o os f fs h1 h2 ih =>
    intro pc s1 s2
    simp only [git_diff_merge, h1, h2, if_false, if_true]
    rw [List.sorted_cons]
    refine ⟨?_, ih pc s1 (sorted_cons_key s2).2⟩
    intro y hy
    rcases merge_key_mem opts (o :: os) fs pc y hy with hk | hk
    · rcases List.mem_map.mp hk with ⟨z, hz, hzk⟩
      rcases List.mem_cons.mp hz with hz1 | hz2
      · subst hz1
        exact (delta_key_lt_def f y).mpr (hzk ▸ h2)
      · have ho := (sorted_cons_key s1).1 z hz2
        exact (delta_key_lt_def f y).mpr (hzk ▸ lt_trans h2 ho)
    · rcases List.mem_map.mp hk with ⟨z, hz, hzk⟩
      have hlt := (sorted_cons_key s2).1 z hz
      exact (delta_key_lt_def f y).mpr (hzk ▸ hlt)
  | case5 o os f fs h1 h2 ih =>
    intro pc s1 s2
    have heq : diff_delta__path o = diff_delta__path f :=
      le_antisymm (not_lt.mp h2) (not_lt.mp h1)
    simp only [git_diff_merge, h1, h2, if_false]
    have hrest : ∀ y ∈ git_diff_merge opts os fs,
        diff_delta__path o < diff_delta__path y := by
      intro y hy
      rcases merge_key_mem opts os fs (path_consistent_cons pc).2 y hy with hk | hk
      · rcases List.mem_map.mp hk with ⟨z, hz, hzk⟩
        have hlt := (sorted_cons_key s1).1 z hz
        exact hzk ▸ hlt
      · rcases List.mem_map.mp hk with ⟨z, hz, hzk⟩
        have hlt := (sorted_cons_key s2).1 z hz
        rw [heq]
        exact hzk ▸ hlt
    have htail : List.Sorted delta_key_lt (git_diff_merge opts os fs) :=
      ih (path_consistent_cons pc).2 (sorted_cons_key s1).2 (sorted_cons_key s2).2
    rcases Classical.em ((diff_delta__merge_like_cgit o f).status = .unmodified ∧
        ¬ opts.include_unmodified) with hdrop | hdrop
    · rw [if_pos hdrop]
      simpa using htail
    · rw [if_neg hdrop]
      have hkm : diff_delta__path (diff_delta__merge_like_cgit o f) = diff_delta__path o :=
        merge_like_cgit_path o f (path_consistent_cons pc).1.1
      simp only [List.singleton_append]
      rw [List.sorted_cons]
      refine ⟨?_, htail⟩
      intro y hy
      exact (delta_key_lt_def _ y).mpr (hkm ▸ hrest y hy)

theorem find_delta_nil (q : String) : find_delta [] q = none := rfl

theorem git_diff_merge_find (opts : git_diff_options) :
    ∀ (l1 l2 : List git_diff_delta), PathConsistent l1 → PathConsistent l2 →
      List.Sorted delta_key_lt l1 → List.Sorted delta_key_lt l2 → ∀ q,
      find_delta (git_diff_merge opts l1 l2) q =
        merge_lookup opts (find_delta l1 q) (find_delta l2 q) := by
  intro l1 l2
  induction l1, l2 using git_diff_merge.induct opts with
  | case1 os =>
    intro pc1 pc2 s1 s2 q
    simp only [git_diff_merge, find_delta_nil]
    cases hfo : find_delta os q <;> rfl
  | case2 fs =>
    intro pc1 pc2 s1 s2 q
    simp only [git_diff_merge, find_delta_nil]
    cases hff : find_delta fs q <;> rfl
  | case3 o os f fs h ih =>
    intro pc1 pc2 s1 s2 q
    simp only [git_diff_merge, h, if_true]
    by_cases hq : diff_delta__path o = q
    · have hnone : find_delta (f :: fs) q = none := by
        apply find_delta_eq_none
        intro d hd
        rcases List.mem_cons.mp hd with hd1 | hd2
        · subst hd1; exact fun hc => absurd (hq ▸ hc ▸ h) (lt_irrefl _)
        · have := (sorted_cons_key s2).1 d hd2
          exact fun hc => absurd (hq ▸ hc ▸ lt_trans h this) (lt_irrefl _)
      rw [find_delta_cons, if_pos hq, find_delta_cons, if_pos hq, hnone]
      rfl
    · rw [find_delta_cons, if_neg hq, find_delta_cons, if_neg hq]
      exact ih (path_consistent_cons pc1).2 pc2 (sorted_cons_key s1).2 s2 q
  | case4 o os f fs h1 h2 ih =>
    intro pc1 pc2 s1 s2 q
    simp only [git_diff_merge, h1, h2, if_false, if_true]
    by_cases hq : diff_delta__path f = q
    · have hnone : find_delta (o :: os) q = none := by
        apply find_delta_eq_none
        intro d hd
        rcases List.mem_cons.mp hd with hd1 | hd2
        · subst hd1; exact fun hc => absurd (hq ▸ hc ▸ h2) (lt_irrefl _)
        · have := (sorted_cons_key s1).1 d hd2
          exact fun hc => absurd (hq ▸ hc ▸ lt_trans h2 this) (lt_irrefl _)
      rw [find_delta_cons, if_pos hq, hnone, find_delta_cons (l := fs), if_pos hq]
      rfl
    · rw [find_delta_cons, if_neg hq, find_delta_cons (l := fs), if_neg hq]
      exact ih pc1 (path_consistent_cons pc2).2 s1 (sorted_cons_key s2).2 q
  | case5 o os f fs h1 h2 ih =>
    intro pc1 pc2 s1 s2 q
    have heq : diff_delta__path o = diff_delta__path f :=
      le_antisymm (not_lt.mp h2) (not_lt.mp h1)
    have hkm : diff_delta__path (diff_delta__merge_like_cgit o f) = diff_delta__path o :=
      merge_like_cgit_path o f (path_consistent_cons pc1).1.1
    have hrestnone : ∀ q', diff_delta__path o = q' →
        find_delta (git_diff_merge opts os fs) q' = none := by
      intro q' hq'
      apply find_delta_eq_none
      intro d hd
      rcases merge_key_mem opts os fs (path_consistent_cons pc1).2 d hd with hk | hk
      · rcases List.mem_map.mp hk with ⟨z, hz, hzk⟩
        have hlt := (sorted_cons_key s1).1 z hz
        rw [hzk] at hlt
        exact fun hc => absurd (hq' ▸ hc ▸ hlt) (lt_irrefl _)
      · rcases List.mem_map.mp hk with ⟨z, hz, hzk⟩
        have hlt := (sorted_cons_key s2).1 z hz
        rw [hzk] at hlt
        rw [← heq] at hlt
        exact fun hc => absurd (hq' ▸ hc ▸ hlt) (lt_irrefl _)
    have htail := ih (path_consistent_cons pc1).2 (path_consistent_cons pc2).2
      (sorted_cons_key s1).2 (sorted_cons_key s2).2 q
    simp only [git_diff_merge, h1, h2, if_false]
    rcases Classical.em ((diff_delta__merge_like_cgit o f).status = .unmodified ∧
        ¬ opts.include_unmodified = true) with hdrop | hdrop
    · rw [if_pos hdrop, List.nil_append]
      by_cases hq : diff_delta__path o = q
      · have hqf : diff_delta__path f = q := heq ▸ hq
        rw [hrestnone q hq, find_delta_cons, if_pos hq, find_delta_cons, if_pos hqf]
        simp [merge_lookup, hdrop.1, hdrop.2]
      · have hqf : ¬ diff_delta__path f = q := fun hc => hq (heq ▸ hc)
        rw [find_delta_cons, if_neg hq, find_delta_cons, if_neg hqf]
        exact htail
    · rw [if_neg hdrop, List.singleton_append]
      by_cases hq : diff_delta__path o = q
      · have hqf : diff_delta__path f = q := heq ▸ hq
        rw [find_delta_cons, if_pos (hkm.trans hq), find_delta_cons, if_pos hq,
          find_delta_cons, if_pos hqf]
        simp only [merge_lookup]
        rw [if_neg hdrop]
      · have hqf : ¬ diff_delta__path f = q := fun hc => hq (heq ▸ hc)
        rw [find_delta_cons, if_neg (fun hc => hq (hkm ▸ hc)), find_delta_cons,
          if_neg hq, find_delta_cons, if_neg hqf]
        exact htail

theorem entry_path_lt_def (a b : git_index_entry) :
    entry_path_lt a b ↔ a.path < b.path := Iff.rfl

theorem from_one_path (o : git_diff_options) (s : git_delta_t) (e : git_index_entry) :
    diff_delta__path (diff_delta__from_one o s e) = e.path := by
  simp only [diff_delta__from_one]
  split <;> split <;> rfl

theorem from_one_pc (o : git_diff_options) (s : git_delta_t) (e : git_index_entry) :
    (diff_delta__from_one o s e).old_file.path = some e.path ∧
    (diff_delta__from_one o s e).new_file.path = some e.path := by
  simp only [diff_delta__from_one]
  split <;> split <;> exact ⟨rfl, rfl⟩

theorem from_two_path (o : git_diff_options) (s : git_delta_t)
    (d n : git_index_entry) (he : d.path = n.path) :
    diff_delta__path (diff_delta__from_two o s d n) = d.path := by
  simp only [diff_delta__from_two]
  cases hr : o.reverse <;> simp [diff_delta__path, file_of_entry, he]

theorem from_two_pc (o : git_diff_options) (s : git_delta_t)
    (d n : git_index_entry) (he : d.path = n.path) :
    (diff_delta__from_two o s d n).old_file.path = some d.path ∧
    (diff_delta__from_two o s d n).new_file.path = some d.path := by
  simp only [diff_delta__from_two]
  cases hr : o.reverse <;> simp [file_of_entry, he]

theorem build_key_mem (o : git_diff_options) :
    ∀ (A B : List git_index_entry), ∀ x ∈ git_diff__from_entries o A B,
      diff_delta__path x ∈ A.map git_index_entry.path ∨
      diff_delta__path x ∈ B.map git_index_entry.path := by
  intro A B
  induction A, B using git_diff__from_entries.induct o with
  | case1 => intro x hx; simp [git_diff__from_entries] at hx
  | case2 n ns ih =>
    intro x hx
    simp only [git_diff__from_entries] at hx
    rcases List.mem_cons.mp hx with hx0 | hx1
    · subst hx0; right; simp [from_one_path]
    · rcases ih x hx1 with ha | hb
      · exact Or.inl ha
      · exact Or.inr (List.mem_cons_of_mem _ hb)
  | case3 d ds ih =>
    intro x hx
    simp only [git_diff__from_entries] at hx
    rcases List.mem_cons.mp hx with hx0 | hx1
    · subst hx0; left; simp [from_one_path]
    · rcases ih x hx1 with ha | hb
      · exact Or.inl (List.mem_cons_of_mem _ ha)
      · exact Or.inr hb
  | case4 d ds n ns h ih =>
    intro x hx
    simp only [git_diff__from_entries, h, if_true] at hx
    rcases List.mem_cons.mp hx with hx0 | hx1
    · subst hx0; left; simp [from_one_path]
    · rcases ih x hx1 with ha | hb
      · exact Or.inl (List.mem_cons_of_mem _ ha)
      · exact Or.inr hb
  | case5 d ds n ns h1 h2 ih =>
    intro x hx
    simp only [git_diff__from_entries, h1, h2, if_false, if_true] at hx
    rcases List.mem_cons.mp hx with hx0 | hx1
    · subst hx0; right; simp [from_one_path]
    · rcases ih x hx1 with ha | hb
      · exact Or.inl ha
      · exact Or.inr (List.mem_cons_of_mem _ hb)
  | case6 d ds n ns h1 h2 ih =>
    intro x hx
    have he : d.path = n.path := le_antisymm (not_lt.mp h2) (not_lt.mp h1)
    simp only [git_diff__from_entries, h1, h2, if_false, List.mem_append] at hx
    rcases hx with hm | hx1
    · left
      have hx2 : x = diff_delta__from_two o .unmodified d n ∨
          x = diff_delta__from_two o .modified d n := by
        rcases Classical.em (d.oid = n.oid ∧ d.mode = n.mode) with hc | hc
        · rw [if_pos hc] at hm
          rcases Classical.em (o.include_unmodified = true) with hu | hu
          · rw [if_pos hu] at hm
            simp at hm
            exact Or.inl hm
          · rw [if_neg hu] at hm
            simp at hm
        · rw [if_neg hc] at hm
          simp at hm
          exact Or.inr hm
      rcases hx2 with hx2 | hx2 <;> subst hx2 <;>
        simp [from_two_path o _ d n he]
    · rcases ih x hx1 with ha | hb
      · exact Or.inl (List.mem_cons_of_mem _ ha)
      · exact Or.inr (List.mem_cons_of_mem _ hb)

theorem build_path_consistent (o : git_diff_options) :
    ∀ (A B : List git_index_entry), PathConsistent (git_diff__from_entries o A B) := by
  intro A B
  induction A, B using git_diff__from_entries.induct o with
  | case1 => intro x hx; simp [git_diff__from_entries] at hx
  | case2 n ns ih =>
    intro x hx
    simp only [git_diff__from_entries] at hx
    rcases List.mem_cons.mp hx with hx0 | hx1
    · subst hx0
      rw [from_one_path]
      exact from_one_pc o .added n
    · exact ih x hx1
  | case3 d ds ih =>
    intro x hx
    simp only [git_diff__from_entries] at hx
    rcases List.mem_cons.mp hx with hx0 | hx1
    · subst hx0
      rw [from_one_path]
      exact from_one_pc o .deleted d
    · exact ih x hx1
  | case4 d ds n ns h ih =>
    intro x hx
    simp only [git_diff__from_entries, h, if_true] at hx
    rcases List.mem_cons.mp hx with hx0 | hx1
    · subst hx0
      rw [from_one_path]
      exact from_one_pc o .deleted d
    · exact ih x hx1
  | case5 d ds n ns h1 h2 ih =>
    intro x hx
    simp only [git_diff__from_entries, h1, h2, if_false, if_true] at hx
    rcases List.mem_cons.mp hx with hx0 | hx1
    · subst hx0
      rw [from_one_path]
      exact from_one_pc o .added n
    · exact ih x hx1
  | case6 d ds n ns h1 h2 ih =>
    intro x hx
    have he : d.path = n.path := le_antisymm (not_lt.mp h2) (not_lt.mp h1)
    simp only [git_diff__from_entries, h1, h2, if_false, List.mem_append] at hx
    rcases hx with hm | hx1
    · have hx2 : x = diff_delta__from_two o .unmodified d n ∨
          x = diff_delta__from_two o .modified d n := by
        rcases Classical.em (d.oid = n.oid ∧ d.mode = n.mode) with hc | hc
        · rw [if_pos hc] at hm
          rcases Classical.em (o.include_unmodified = true) with hu | hu
          · rw [if_pos hu] at hm
            simp at hm
            exact Or.inl hm
          · rw [if_neg hu] at hm
            simp at hm
        · rw [if_neg hc] at hm
          simp at hm
          exact Or.inr hm
      rcases hx2 with hx2 | hx2 <;> subst hx2 <;>
        · rw [from_two_path o _ d n he]
          exact from_two_pc o _ d n he
    · exact ih x hx1

theorem build_sorted (o : git_diff_options) :
    ∀ (A B : List git_index_entry),
      List.Sorted entry_path_lt A → List.Sorted entry_path_lt B →
      List.Sorted delta_key_lt (git_diff__from_entries o A B) := by
  intro A B
  induction A, B using git_diff__from_entries.induct o with
  | case1 => intro sA sB; simp [git_diff__from_entries]
  | case2 n ns ih =>
    intro sA sB
    simp only [git_diff__from_entries]
    rw [List.sorted_cons]
    refine ⟨?_, ih sA (List.sorted_cons.mp sB).2⟩
    intro y hy
    rcases build_key_mem o [] ns y hy with hk | hk
    · simp at hk
    · rcases List.mem_map.mp hk with ⟨z, hz, hzk⟩
      have := (List.sorted_cons.mp sB).1 z hz
      rw [delta_key_lt_def, from_one_path, ← hzk]
      exact this
  | case3 d ds ih =>
    intro sA sB
    simp only [git_diff__from_entries]
    rw [List.sorted_cons]
    refine ⟨?_, ih (List.sorted_cons.mp sA).2 sB⟩
    intro y hy
    rcases build_key_mem o ds [] y hy with hk | hk
    · rcases List.mem_map.mp hk with ⟨z, hz, hzk⟩
      have := (List.sorted_cons.mp sA).1 z hz
      rw [delta_key_lt_def, from_one_path, ← hzk]
      exact this
    · simp at hk
  | case4 d ds n ns h ih =>
    intro sA sB
    simp only [git_diff__from_entries, h, if_true]
    rw [List.sorted_cons]
    refine ⟨?_, ih (List.sorted_cons.mp sA).2 sB⟩
    intro y hy
    rw [delta_key_lt_def, from_one_path]
    rcases build_key_mem o ds (n :: ns) y hy with hk | hk
    · rcases List.mem_map.mp hk with ⟨z, hz, hzk⟩
      have := (List.sorted_cons.mp sA).1 z hz
      rw [← hzk]
      exact this
    · rcases List.mem_map.mp hk with ⟨z, hz, hzk⟩
      rcases List.mem_cons.mp hz with hz1 | hz2
      · subst hz1
        rw [← hzk]
        exact h
      · have := (List.sorted_cons.mp sB).1 z hz2
        rw [← hzk]
        exact lt_trans h this
  | case5 d ds n ns h1 h2 ih =>
    intro sA sB
    simp only [git_diff__from_entries, h1, h2, if_false, if_true]
    rw [List.sorted_cons]
    refine ⟨?_, ih sA (List.sorted_cons.mp sB).2⟩
    intro y hy
    rw [delta_key_lt_def, from_one_path]
    rcases build_key_mem o (d :: ds) ns y hy with hk | hk
    · rcases List.mem_map.mp hk with ⟨z, hz, hzk⟩
      rcases List.mem_cons.mp hz with hz1 | hz2
      · subst hz1
        rw [← hzk]
        exact h2
      · have := (List.sorted_cons.mp sA).1 z hz2
        rw [← hzk]
        exact lt_trans h2 this
    · rcases List.mem_map.mp hk with ⟨z, hz, hzk⟩
      have := (List.sorted_cons.mp sB).1 z hz
      rw [← hzk]
      exact this
  | case6 d ds n ns h1 h2 ih =>
    intro sA sB
    have he : d.path = n.path := le_antisymm (not_lt.mp h2) (not_lt.mp h1)
    simp only [git_diff__from_entries, h1, h2, if_false]
    have htail := ih (List.sorted_cons.mp sA).2 (List.sorted_cons.mp sB).2
    have hrest : ∀ y ∈ git_diff__from_entries o ds ns, d.path < diff_delta__path y := by
      intro y hy
      rcases build_key_mem o ds ns y hy with hk | hk
      · rcases List.mem_map.mp hk with ⟨z, hz, hzk⟩
        have := (List.sorted_cons.mp sA).1 z hz
        rw [← hzk]
        exact this
      · rcases List.mem_map.mp hk with ⟨z, hz, hzk⟩
        have := (List.sorted_cons.mp sB).1 z hz
        rw [← hzk, he]
        exact this
    rcases Classical.em (d.oid = n.oid ∧ d.mode = n.mode) with hc | hc
    · rw [if_pos hc]
      rcases Classical.em (o.include_unmodified = true) with hu | hu
      · rw [if_pos hu, List.singleton_append, List.sorted_cons]
        refine ⟨?_, htail⟩
        intro y hy
        rw [delta_key_lt_def, from_two_path o _ d n he]
        exact hrest y hy
      · rw [if_neg hu, List.nil_append]
        exact htail
    · rw [if_neg hc, List.singleton_append, List.sorted_cons]
      refine ⟨?_, htail⟩
      intro y hy
      rw [delta_key_lt_def, from_two_path o _ d n he]
      exact hrest y hy

/-- C1 theorem try -/
theorem git_diff_merge_pending_delete_wins
    (opts : git_diff_options) (onto fromd : List git_diff_delta) (q : String)
    (hpc1 : PathConsistent onto) (hpc2 : PathConsistent fromd)
    (hs1 : List.Sorted delta_key_lt onto) (hs2 : List.Sorted delta_key_lt fromd) :
    (∀ o f, find_delta onto q = some o → find_delta fromd q = some f →
      o.status = .deleted →
      find_delta (git_diff_merge opts onto fromd) q = some o ∧
        o.status = git_delta_t.deleted) ∧
    (∀ o, find_delta onto q = some o → find_delta fromd q = none →
      find_delta (git_diff_merge opts onto fromd) q = some o) ∧
    (∀ f, find_delta onto q = none → find_delta fromd q = some f →
      find_delta (git_diff_merge opts onto fromd) q = some f) := by
  have hchar := git_diff_merge_find opts onto fromd hpc1 hpc2 hs1 hs2 q
  refine ⟨?_, ?_, ?_⟩
  · intro o f ho hf hdel
    have hm : diff_delta__merge_like_cgit o f = o := by
      unfold diff_delta__merge_like_cgit
      rw [if_pos hdel]
    have hne : ¬ ((diff_delta__merge_like_cgit o f).status = git_delta_t.unmodified ∧
        ¬ opts.include_unmodified = true) := by
      rw [hm, hdel]
      rintro ⟨hcon, -⟩
      simp at hcon
    rw [hchar, ho, hf]
    simp only [merge_lookup]
    rw [if_neg hne, hm]
    exact ⟨rfl, hdel⟩
  · intro o ho hnone
    rw [hchar, ho, hnone]
    rfl
  · intro f hnone hf
    rw [hchar, hnone, hf]
    rfl

theorem git_diff_merge_pending_delete_wins_witness :
    find_delta
      (git_diff_merge ⟨false, false, false⟩
        [⟨⟨11, some "a", 3, 33188⟩, ⟨0, some "a", 0, 0⟩, .deleted, 0, false⟩]
        [⟨⟨0, some "a", 0, 0⟩, ⟨14, some "a", 4, 33188⟩, .untracked, 0, false⟩]) "a" =
      some ⟨⟨11, some "a", 3, 33188⟩, ⟨0, some "a", 0, 0⟩, .deleted, 0, false⟩ := by
  exact ((git_diff_merge_pending_delete_wins ⟨false, false, false⟩
    [⟨⟨11, some "a", 3, 33188⟩, ⟨0, some "a", 0, 0⟩, .deleted, 0, false⟩]
    [⟨⟨0, some "a", 0, 0⟩, ⟨14, some "a", 4, 33188⟩, .untracked, 0, false⟩] "a"
    (by decide) (by decide) (by decide) (by decide)).1
    ⟨⟨11, some "a", 3, 33188⟩, ⟨0, some "a", 0, 0⟩, .deleted, 0, false⟩
    ⟨⟨0, some "a", 0, 0⟩, ⟨14, some "a", 4, 33188⟩, .untracked, 0, false⟩
    (by decide) (by decide) rfl).1

/-- C7: every diff list produced by the Delta Builder from ordered entry
sequences, and every diff list produced by the Merge Engine from ordered
diff lists, is strictly ordered by the path-derived comparison key; in
particular no two of its deltas share the same key. -/
theorem diff_lists_strictly_ordered_by_key
    (o : git_diff_options) (A B : List git_index_entry)
    (opts : git_diff_options) (onto fromd : List git_diff_delta)
    (hA : List.Sorted entry_path_lt A) (hB : List.Sorted entry_path_lt B)
    (hpc1 : PathConsistent onto) (hpc2 : PathConsistent fromd)
    (hs1 : List.Sorted delta_key_lt onto) (hs2 : List.Sorted delta_key_lt fromd) :
    (List.Sorted delta_key_lt (git_diff__from_entries o A B) ∧
      List.Pairwise (fun a b => diff_delta__path a ≠ diff_delta__path b)
        (git_diff__from_entries o A B)) ∧
    (List.Sorted delta_key_lt (git_diff_merge opts onto fromd) ∧
      List.Pairwise (fun a b => diff_delta__path a ≠ diff_delta__path b)
        (git_diff_merge opts onto fromd)) := by
  have h1 := build_sorted o A B hA hB
  have h2 := git_diff_merge_sorted_aux opts onto fromd hpc1 hs1 hs2
  exact ⟨⟨h1, h1.imp (fun hab => ne_of_lt ((delta_key_lt_def _ _).mp hab))⟩,
    ⟨h2, h2.imp (fun hab => ne_of_lt ((delta_key_lt_def _ _).mp hab))⟩⟩

theorem diff_lists_strictly_ordered_by_key_witness :
    (List.Sorted delta_key_lt
        (git_diff__from_entries ⟨false, false, false⟩ [⟨"a", 1, 33188, 3⟩] []) ∧
      List.Pairwise (fun a b => diff_delta__path a ≠ diff_delta__path b)
        (git_diff__from_entries ⟨false, false, false⟩ [⟨"a", 1, 33188, 3⟩] [])) ∧
    (List.Sorted delta_key_lt
        (git_diff_merge ⟨false, false, false⟩
          [⟨⟨11, some "a", 3, 33188⟩, ⟨0, some "a", 0, 0⟩, .deleted, 0, false⟩]
          [⟨⟨0, some "b", 0, 0⟩, ⟨14, some "b", 4, 33188⟩, .added, 0, false⟩]) ∧
      List.Pairwise (fun a b => diff_delta__path a ≠ diff_delta__path b)
        (git_diff_merge ⟨false, false, false⟩
          [⟨⟨11, some "a", 3, 33188⟩, ⟨0, some "a", 0, 0⟩, .deleted, 0, false⟩]
          [⟨⟨0, some "b", 0, 0⟩, ⟨14, some "b", 4, 33188⟩, .added, 0, false⟩])) :=
  diff_lists_strictly_ordered_by_key ⟨false, false, false⟩ [⟨"a", 1, 33188, 3⟩] []
    ⟨false, false, false⟩
    [⟨⟨11, some "a", 3, 33188⟩, ⟨0, some "a", 0, 0⟩, .deleted, 0, false⟩]
    [⟨⟨0, some "b", 0, 0⟩, ⟨14, some "b", 4, 33188⟩, .added, 0, false⟩]
    (by decide) (by decide) (by decide) (by decide) (by decide) (by decide)

theorem split_at_first_eq {x : String} :
    ∀ {xs l r : List String}, split_at_first x xs = some (l, r) →
      xs = l ++ x :: r := by
  intro xs
  induction xs with
  | nil => intro l r h; simp [split_at_first] at h
  | cons a rest ih =>
    intro l r h
    by_cases ha : a = x
    · rw [split_at_first, if_pos ha] at h
      cases h
      simpa using ha
    · rw [split_at_first, if_neg ha] at h
      cases hs : split_at_first x rest with
      | none => rw [hs] at h; cases h
      | some lr =>
        rw [hs] at h
        cases lr with
        | mk l' r' =>
          simp at h
          rcases h with ⟨h1, h2⟩
          subst h1
          subst h2
          simp [ih hs]

theorem split_at_first_isSome {x : String} :
    ∀ {xs : List String}, x ∈ xs → (split_at_first x xs).isSome := by
  intro xs
  induction xs with
  | nil => intro h; cases h
  | cons a rest ih =>
    intro h
    by_cases ha : a = x
    · rw [split_at_first, if_pos ha]; rfl
    · rw [split_at_first, if_neg ha]
      rcases List.mem_cons.mp h with h0 | h1
      · exact absurd h0.symm ha
      · have := ih h1
        cases hs : split_at_first x rest with
        | none => rw [hs] at this; cases this
        | some lr => cases lr with | mk l r => rfl

theorem restrict_old_cons_ctx (d : String) (rest : List git_diff_line) :
    restrict_old (⟨GIT_DIFF_LINE_CONTEXT, d⟩ :: rest) = d :: restrict_old rest := rfl

theorem restrict_old_cons_del (d : String) (rest : List git_diff_line) :
    restrict_old (⟨GIT_DIFF_LINE_DELETION, d⟩ :: rest) = d :: restrict_old rest := rfl

theorem restrict_old_cons_add (d : String) (rest : List git_diff_line) :
    restrict_old (⟨GIT_DIFF_LINE_ADDITION, d⟩ :: rest) = restrict_old rest := rfl

theorem restrict_new_cons_ctx (d : String) (rest : List git_diff_line) :
    restrict_new (⟨GIT_DIFF_LINE_CONTEXT, d⟩ :: rest) = d :: restrict_new rest := rfl

theorem restrict_new_cons_del (d : String) (rest : List git_diff_line) :
    restrict_new (⟨GIT_DIFF_LINE_DELETION, d⟩ :: rest) = restrict_new rest := rfl

theorem restrict_new_cons_add (d : String) (rest : List git_diff_line) :
    restrict_new (⟨GIT_DIFF_LINE_ADDITION, d⟩ :: rest) = d :: restrict_new rest := rfl

theorem restrict_old_append (a b : List git_diff_line) :
    restrict_old (a ++ b) = restrict_old a ++ restrict_old b := by
  simp [restrict_old, List.filter_append]

theorem restrict_new_append (a b : List git_diff_line) :
    restrict_new (a ++ b) = restrict_new a ++ restrict_new b := by
  simp [restrict_new, List.filter_append]

theorem xdl_diff_classic_valid :
    ∀ (olds news : List String),
      restrict_old (xdl_diff_classic olds news) = olds ∧
      restrict_new (xdl_diff_classic olds news) = news := by
  intro olds news
  induction olds, news using xdl_diff_classic.induct with
  | case1 =>
    simp only [xdl_diff_classic]
    exact ⟨rfl, rfl⟩
  | case2 n ns ih =>
    simp only [xdl_diff_classic]
    rw [restrict_old_cons_add, restrict_new_cons_add]
    exact ⟨ih.1, by rw [ih.2]⟩
  | case3 d ds ih =>
    simp only [xdl_diff_classic]
    rw [restrict_old_cons_del, restrict_new_cons_del]
    exact ⟨by rw [ih.1], ih.2⟩
  | case4 ds n ns ih =>
    simp only [xdl_diff_classic, eq_self_iff_true, if_true]
    rw [restrict_old_cons_ctx, restrict_new_cons_ctx]
    exact ⟨by rw [ih.1], by rw [ih.2]⟩
  | case5 d ds n ns hne del add hcost ih1 ih2 =>
    simp only [xdl_diff_classic, if_neg hne, if_pos hcost]
    rw [restrict_old_cons_del, restrict_new_cons_del]
    exact ⟨by rw [ih1.1], ih1.2⟩
  | case6 d ds n ns hne del add hcost ih1 ih2 =>
    simp only [xdl_diff_classic, if_neg hne, if_neg hcost]
    rw [restrict_old_cons_add, restrict_new_cons_add]
    exact ⟨ih2.1, by rw [ih2.2]⟩

theorem xdl_diff_patience_valid :
    ∀ (olds news : List String),
      restrict_old (xdl_diff_patience olds news) = olds ∧
      restrict_new (xdl_diff_patience olds news) = news := by
  intro olds news
  induction olds, news using xdl_diff_patience.induct with
  | case1 olds news hfind =>
    rw [xdl_diff_patience, hfind]
    exact xdl_diff_classic_valid olds news
  | case2 olds news x hfind ol o2 nl n2 h1 h2 ih1 ih2 =>
    rw [xdl_diff_patience, hfind]
    dsimp only
    split
    · rename_i ol' o2' nl' n2' heq1 heq2
      rw [heq1] at h1
      rw [heq2] at h2
      injection h1 with h1
      injection h2 with h2
      injection h1 with ha hb
      injection h2 with hc hd
      subst ha
      subst hb
      subst hc
      subst hd
      rw [restrict_old_append, restrict_new_append,
        restrict_old_cons_ctx, restrict_new_cons_ctx]
      rw [ih1.1, ih1.2, ih2.1, ih2.2]
      exact ⟨(split_at_first_eq heq1).symm, (split_at_first_eq heq2).symm⟩
    · rename_i hfall
      exact (hfall ol o2 nl n2 h1 h2).elim
  | case3 olds news x hfind hnot =>
    exfalso
    have hp := List.find?_some hfind
    simp only [Bool.and_eq_true, beq_iff_eq] at hp
    have hmem_old : x ∈ olds := List.mem_of_find?_eq_some hfind
    have hmem_new : x ∈ news := by
      have hpos : 0 < news.count x := by rw [hp.2]; exact Nat.zero_lt_one
      exact List.count_pos_iff.mp hpos
    have hs1 := split_at_first_isSome hmem_old
    have hs2 := split_at_first_isSome hmem_new
    cases e1 : split_at_first x olds with
    | none => rw [e1] at hs1; cases hs1
    | some lr1 =>
      cases e2 : split_at_first x news with
      | none => rw [e2] at hs2; cases hs2
      | some lr2 =>
        cases lr1 with
        | mk a b =>
          cases lr2 with
          | mk c d => exact hnot a b c d e1 e2

/-- C6: for every pair of input buffers diffed as text, by the default
strategy or by the Patience strategy, the resulting line sequence is a
valid edit script: the Context and Deletion lines, in order, are exactly
the lines of the old buffer, and the Context and Addition lines, in order,
are exactly the lines of the new buffer. -/
theorem text_diff_valid_edit_script (opts : git_diff_options)
    (old_buf new_buf : String) :
    restrict_old (xdl_diff opts (git_buffer_lines old_buf) (git_buffer_lines new_buf)) =
      git_buffer_lines old_buf ∧
    restrict_new (xdl_diff opts (git_buffer_lines old_buf) (git_buffer_lines new_buf)) =
      git_buffer_lines new_buf := by
  unfold xdl_diff
  split
  · exact xdl_diff_patience_valid _ _
  · exact xdl_diff_classic_valid _ _

theorem foreach_lines_zero (cb : git_diff_delta → Char → String → Int)
    (d : git_diff_delta) (ls : List git_diff_line)
    (hz : ∀ x o c, cb x o c = 0) :
    foreach_lines (some cb) d ls =
      (0, ls.map (fun l => DiffEvent.line d l.origin l.content)) := by
  induction ls with
  | nil => rfl
  | cons l rest ih =>
    simp only [foreach_lines, hz, ne_eq, not_true_eq_false, if_neg, ih,
      List.map_cons]
    simp

theorem foreach_hunks_zero
    (hcb : git_diff_delta → git_diff_range → String → Int)
    (lcb : git_diff_delta → Char → String → Int)
    (d : git_diff_delta) (hs : List git_hunk)
    (hzh : ∀ x r s, hcb x r s = 0) (hzl : ∀ x o c, lcb x o c = 0) :
    foreach_hunks (some hcb) (some lcb) d hs =
      (0, (hs.map (fun h => DiffEvent.hunk d h.range h.header ::
        h.lines.map (fun l => DiffEvent.line d l.origin l.content))).flatten) := by
  induction hs with
  | nil => rfl
  | cons h rest ih =>
    simp only [foreach_hunks, hzh, ne_eq, not_true_eq_false, if_neg,
      foreach_lines_zero lcb d h.lines hzl, ih]
    simp

theorem git_diff_foreach_zero
    (differ : git_diff_delta → Except Int (List git_hunk))
    (deltas : List git_diff_delta)
    (fcb : git_diff_delta → Int)
    (hcb : git_diff_delta → git_diff_range → String → Int)
    (lcb : git_diff_delta → Char → String → Int)
    (hdiff : ∀ d ∈ deltas, ∃ hs, differ d = .ok hs)
    (hzf : ∀ x, fcb x = 0) (hzh : ∀ x r s, hcb x r s = 0)
    (hzl : ∀ x o c, lcb x o c = 0) :
    git_diff_foreach differ deltas fcb (some hcb) (some lcb) =
      (0, trace_of differ deltas) := by
  induction deltas with
  | nil => rfl
  | cons d rest ih =>
    have hrest := ih (fun x hx => hdiff x (List.mem_cons_of_mem d hx))
    simp only [git_diff_foreach, hzf, ne_eq, not_true_eq_false, if_neg]
    by_cases hskip : skip_hunks d = true
    · simp only [hskip, Bool.not_true, Bool.and_false, if_neg, hrest]
      simp [trace_of, delta_trace, hunks_for, hskip]
    · have hskip' : skip_hunks d = false := by
        cases hsk : skip_hunks d
        · rfl
        · exact absurd hsk hskip
      rcases hdiff d (List.mem_cons_self d rest) with ⟨hs, hok⟩
      simp only [hskip', Option.isSome_some, Bool.true_or, Bool.not_false,
        Bool.and_true, if_pos, hok, foreach_hunks_zero hcb lcb d hs hzh hzl, hrest]
      simp [trace_of, delta_trace, hunks_for, hskip', hok]

theorem iter_lines_drive_spec (d : git_diff_delta) :
    ∀ (L : List git_diff_line) (it : git_diff_iterator), it.cur_lines = L →
      iter_lines_drive d (L.length + 1) it =
        (L.map (fun l => DiffEvent.line d l.origin l.content),
          { it with cur_lines := [] }) := by
  intro L
  induction L with
  | nil =>
    intro it h
    cases it with
    | mk a b c cur hc cl =>
      simp only at h
      subst h
      rfl
  | cons l rest ih =>
    intro it h
    have hnext : git_diff_iterator_next_line it =
        (.ok l, { it with cur_lines := rest }) := by
      unfold git_diff_iterator_next_line
      rw [h]
    rw [List.length_cons, iter_lines_drive, hnext]
    dsimp only
    rw [ih { it with cur_lines := rest } rfl]
    rfl

theorem iter_hunks_drive_cached (differ : git_diff_delta → Except Int (List git_hunk))
    (d : git_diff_delta) :
    ∀ (HS : List git_hunk) (it : git_diff_iterator),
      it.current = some d → it.hunk_cache = some HS →
      iter_hunks_drive differ d (HS.length + 1) it =
        ((HS.map (fun h => DiffEvent.hunk d h.range h.header ::
          h.lines.map (fun l => DiffEvent.line d l.origin l.content))).flatten,
          { it with hunk_cache := some [], cur_lines := [] }) := by
  intro HS
  induction HS with
  | nil =>
    intro it hc hh
    have hnext : git_diff_iterator_next_hunk differ it =
        (.iterover, { it with hunk_cache := some [], cur_lines := [] }) := by
      simp only [git_diff_iterator_next_hunk, hc, hh]
    rw [List.length_nil, iter_hunks_drive, hnext]
    rfl
  | cons h rest ih =>
    intro it hc hh
    have hnext : git_diff_iterator_next_hunk differ it =
        (.ok h, { it with hunk_cache := some rest, cur_lines := h.lines }) := by
      simp only [git_diff_iterator_next_hunk, hc, hh]
    rw [List.length_cons, iter_hunks_drive, hnext]
    dsimp only
    rw [iter_lines_drive_spec d h.lines
      { it with hunk_cache := some rest, cur_lines := h.lines } rfl]
    dsimp only
    rw [ih { it with hunk_cache := some rest, cur_lines := [] } hc rfl]
    rfl

theorem iter_hunks_drive_fresh (differ : git_diff_delta → Except Int (List git_hunk))
    (d : git_diff_delta) (HS : List git_hunk) (it : git_diff_iterator)
    (hc : it.current = some d) (hh : it.hunk_cache = none)
    (hok : hunks_for differ d = .ok HS) :
    iter_hunks_drive differ d (HS.length + 1) it =
      ((HS.map (fun h => DiffEvent.hunk d h.range h.header ::
        h.lines.map (fun l => DiffEvent.line d l.origin l.content))).flatten,
        { it with hunk_cache := some [], cur_lines := [] }) := by
  cases HS with
  | nil =>
    have hnext : git_diff_iterator_next_hunk differ it =
        (.iterover, { it with hunk_cache := some [], cur_lines := [] }) := by
      simp only [git_diff_iterator_next_hunk, hc, hh, hok]
    rw [List.length_nil, iter_hunks_drive, hnext]
    rfl
  | cons h rest =>
    have hnext : git_diff_iterator_next_hunk differ it =
        (.ok h, { it with hunk_cache := some rest, cur_lines := h.lines }) := by
      simp only [git_diff_iterator_next_hunk, hc, hh, hok]
    rw [List.length_cons, iter_hunks_drive, hnext]
    dsimp only
    rw [iter_lines_drive_spec d h.lines
      { it with hunk_cache := some rest, cur_lines := h.lines } rfl]
    dsimp only
    rw [iter_hunks_drive_cached differ d rest
      { it with hunk_cache := some rest, cur_lines := [] } hc rfl]
    rfl

theorem iter_files_drive_spec (differ : git_diff_delta → Except Int (List git_hunk)) :
    ∀ (R : List git_diff_delta) (it : git_diff_iterator), it.remaining = R →
      (∀ x ∈ R, ∃ hs, differ x = .ok hs) →
      (iter_files_drive differ (R.length + 1) it).1 = trace_of differ R := by
  intro R
  induction R with
  | nil =>
    intro it h hd
    simp [iter_files_drive, git_diff_iterator_next_file, h, trace_of]
  | cons d rest ih =>
    intro it h hd
    have hnext : git_diff_iterator_next_file it =
        (.ok d, { it with remaining := rest, current := some d, file_index := it.file_index + (if it.current.isSome then 1 else 0), hunk_cache := none, cur_lines := [] }) := by
      simp only [git_diff_iterator_next_file, h]
    have hex : ∃ HS, hunks_for differ d = .ok HS ∧ hunk_count differ d = HS.length := by
      rcases hd d (List.mem_cons_self d rest) with ⟨hs, hok⟩
      by_cases hskip : skip_hunks d = true
      · exact ⟨[], by simp [hunks_for, hskip], by simp [hunk_count, hunks_for, hskip]⟩
      · have hskip' : skip_hunks d = false := by
          cases hsk : skip_hunks d
          · rfl
          · exact absurd hsk hskip
        exact ⟨hs, by simp [hunks_for, hskip', hok],
          by simp [hunk_count, hunks_for, hskip', hok]⟩
    rcases hex with ⟨HS, hok, hcnt⟩
    rw [List.length_cons, iter_files_drive, hnext]
    dsimp only
    rw [hcnt]
    rw [iter_hunks_drive_fresh differ d HS
      { it with remaining := rest, current := some d, file_index := it.file_index + (if it.current.isSome then 1 else 0), hunk_cache := none, cur_lines := [] } rfl rfl hok]
    dsimp only
    rw [ih { it with remaining := rest, current := some d, file_index := it.file_index + (if it.current.isSome then 1 else 0), hunk_cache := some [], cur_lines := [] } rfl
      (fun x hx => hd x (List.mem_cons_of_mem d hx))]
    simp [trace_of, delta_trace, hok]

/-- C3: for any fixed diff list, the pull-based iterator visits exactly the
same files, in the same order, with the same hunks and the same lines (same
origin and same content bytes) as the eager callback traversal
`git_diff_foreach` driven with file, hunk and line callbacks supplied —
whenever the per-file text diffs succeed and no callback aborts the
walk. -/
theorem iterator_visits_match_foreach
    (differ : git_diff_delta → Except Int (List git_hunk))
    (deltas : List git_diff_delta)
    (fcb : git_diff_delta → Int)
    (hcb : git_diff_delta → git_diff_range → String → Int)
    (lcb : git_diff_delta → Char → String → Int)
    (hdiff : ∀ x ∈ deltas, ∃ hs, differ x = .ok hs)
    (hzf : ∀ x, fcb x = 0) (hzh : ∀ x r s, hcb x r s = 0)
    (hzl : ∀ x o c, lcb x o c = 0) :
    git_diff_iterator_walk differ deltas =
      (git_diff_foreach differ deltas fcb (some hcb) (some lcb)).2 := by
  rw [git_diff_foreach_zero differ deltas fcb hcb lcb hdiff hzf hzh hzl]
  unfold git_diff_iterator_walk
  exact iter_files_drive_spec differ deltas (git_diff_iterator_new deltas) rfl hdiff

theorem foreach_lines_events
    (lcb : Option (git_diff_delta → Char → String → Int))
    (d : git_diff_delta) (ls : List git_diff_line) :
    ∀ e ∈ (foreach_lines lcb d ls).2, ∃ o c, e = DiffEvent.line d o c := by
  induction ls with
  | nil => intro e he; cases he
  | cons l rest ih =>
    intro e he
    cases lcb with
    | none => cases he
    | some cb =>
      by_cases hr : cb d l.origin l.content ≠ 0
      · simp only [foreach_lines, if_pos hr] at he
        rcases List.mem_singleton.mp he with rfl
        exact ⟨l.origin, l.content, rfl⟩
      · simp only [foreach_lines, if_neg hr] at he
        rcases List.mem_cons.mp he with he0 | he1
        · subst he0; exact ⟨l.origin, l.content, rfl⟩
        · exact ih e he1

theorem foreach_hunks_events
    (hcb : Option (git_diff_delta → git_diff_range → String → Int))
    (lcb : Option (git_diff_delta → Char → String → Int))
    (d : git_diff_delta) (hs : List git_hunk) :
    ∀ e ∈ (foreach_hunks hcb lcb d hs).2,
      e.delta = d ∧ e.isHunkOrLine = true := by
  induction hs with
  | nil => intro e he; cases he
  | cons h rest ih =>
    intro e he
    have hline : ∀ e ∈ (foreach_lines lcb d h.lines).2,
        e.delta = d ∧ e.isHunkOrLine = true := by
      intro e he
      rcases foreach_lines_events lcb d h.lines e he with ⟨o, c, rfl⟩
      exact ⟨rfl, rfl⟩
    cases hcb with
    | none =>
      simp only [foreach_hunks] at he
      by_cases hl : (foreach_lines lcb d h.lines).1 ≠ 0
      · simp only [if_neg (by simp : ¬ (0 : Int) ≠ 0), if_pos hl, List.nil_append] at he
        exact hline e he
      · simp only [if_neg (by simp : ¬ (0 : Int) ≠ 0), if_neg hl, List.nil_append,
          List.mem_append] at he
        rcases he with he1 | he2
        · exact hline e he1
        · exact ih e he2
    | some cb =>
      by_cases hr : cb d h.range h.header ≠ 0
      · simp only [foreach_hunks, if_pos hr] at he
        simp only [if_pos (by simp [GIT_EUSER] : (GIT_EUSER : Int) ≠ 0)] at he
        rcases List.mem_singleton.mp he with rfl
        exact ⟨rfl, rfl⟩
      · simp only [foreach_hunks, if_neg hr] at he
        simp only [if_neg (by simp : ¬ (0 : Int) ≠ 0), List.singleton_append] at he
        by_cases hl : (foreach_lines lcb d h.lines).1 ≠ 0
        · simp only [if_pos hl] at he
          rcases List.mem_cons.mp he with he0 | he1
          · subst he0; exact ⟨rfl, rfl⟩
          · exact hline e he1
        · simp only [if_neg hl, List.mem_append, List.mem_cons] at he
          rcases he with (he0 | he1) | he2
          · subst he0; exact ⟨rfl, rfl⟩
          · exact hline e he1
          · exact ih e he2

theorem git_diff_foreach_events
    (differ : git_diff_delta → Except Int (List git_hunk))
    (deltas : List git_diff_delta) (fcb : git_diff_delta → Int)
    (hcb : Option (git_diff_delta → git_diff_range → String → Int))
    (lcb : Option (git_diff_delta → Char → String → Int)) :
    ∀ e ∈ (git_diff_foreach differ deltas fcb hcb lcb).2,
      e.isHunkOrLine = true → skip_hunks e.delta = false := by
  induction deltas with
  | nil => intro e he; cases he
  | cons d rest ih =>
    intro e he hkind
    by_cases hf : fcb d ≠ 0
    · simp only [git_diff_foreach, if_pos hf] at he
      rcases List.mem_singleton.mp he with rfl
      cases hkind
    · simp only [git_diff_foreach, if_neg hf] at he
      by_cases hwant : ((hcb.isSome || lcb.isSome) && !(skip_hunks d)) = true
      · rw [if_pos hwant] at he
        have hskip : skip_hunks d = false := by
          have hw2 := hwant
          rw [Bool.and_eq_true] at hw2
          rcases hw2 with ⟨-, hns⟩
          cases hsk : skip_hunks d
          · rfl
          · rw [hsk] at hns; cases hns
        cases hdf : differ d with
        | error ec =>
          rw [hdf] at he
          rcases List.mem_singleton.mp he with rfl
          cases hkind
        | ok hs =>
          rw [hdf] at he
          dsimp only at he
          by_cases hh : (foreach_hunks hcb lcb d hs).1 ≠ 0
          · rw [if_pos hh] at he
            rcases List.mem_cons.mp he with he0 | he1
            · subst he0; cases hkind
            · rw [(foreach_hunks_events hcb lcb d hs e he1).1]
              exact hskip
          · rw [if_neg hh] at he
            dsimp only at he
            rcases List.mem_cons.mp he with he0 | he1
            · subst he0; cases hkind
            · rcases List.mem_append.mp he1 with he2 | he3
              · rw [(foreach_hunks_events hcb lcb d hs e he2).1]
                exact hskip
              · exact ih e he3 hkind
      · rw [if_neg hwant] at he
        dsimp only at he
        rcases List.mem_cons.mp he with he0 | he1
        · subst he0; cases hkind
        · exact ih e he1 hkind

theorem iter_lines_drive_events (d : git_diff_delta) :
    ∀ (fuel : Nat) (it : git_diff_iterator),
      ∀ e ∈ (iter_lines_drive d fuel it).1, ∃ o c, e = DiffEvent.line d o c := by
  intro fuel
  induction fuel with
  | zero => intro it e he; cases he
  | succ n ih =>
    intro it e he
    rcases hres : git_diff_iterator_next_line it with ⟨r, it'⟩
    cases r with
    | ok l =>
      rw [iter_lines_drive, hres] at he
      dsimp only at he
      rcases List.mem_cons.mp he with he0 | he1
      · subst he0; exact ⟨l.origin, l.content, rfl⟩
      · exact ih it' e he1
    | iterover =>
      rw [iter_lines_drive, hres] at he
      cases he
    | err ec =>
      rw [iter_lines_drive, hres] at he
      cases he

theorem iter_hunks_drive_events
    (differ : git_diff_delta → Except Int (List git_hunk)) (d : git_diff_delta) :
    ∀ (fuel : Nat) (it : git_diff_iterator),
      ∀ e ∈ (iter_hunks_drive differ d fuel it).1,
        e.delta = d ∧ e.isHunkOrLine = true := by
  intro fuel
  induction fuel with
  | zero => intro it e he; cases he
  | succ n ih =>
    intro it e he
    rcases hres : git_diff_iterator_next_hunk differ it with ⟨r, it'⟩
    cases r with
    | ok h =>
      rw [iter_hunks_drive, hres] at he
      dsimp only at he
      rcases List.mem_cons.mp he with he0 | he1
      · subst he0; exact ⟨rfl, rfl⟩
      · rcases List.mem_append.mp he1 with he2 | he3
        · rcases iter_lines_drive_events d (h.lines.length + 1) it' e he2 with ⟨o, c, rfl⟩
          exact ⟨rfl, rfl⟩
        · exact ih _ e he3
    | iterover =>
      rw [iter_hunks_drive, hres] at he
      cases he
    | err ec =>
      rw [iter_hunks_drive, hres] at he
      cases he

theorem iter_hunks_drive_skip
    (differ : git_diff_delta → Except Int (List git_hunk)) (d : git_diff_delta)
    (fuel : Nat) (it : git_diff_iterator)
    (hc : it.current = some d) (hh : it.hunk_cache = none)
    (hskip : skip_hunks d = true) :
    (iter_hunks_drive differ d fuel it).1 = [] := by
  cases fuel with
  | zero => rfl
  | succ n =>
    have hnext : git_diff_iterator_next_hunk differ it =
        (.iterover, { it with hunk_cache := some [], cur_lines := [] }) := by
      simp only [git_diff_iterator_next_hunk, hc, hh, hunks_for, hskip, if_pos]
    rw [iter_hunks_drive, hnext]

theorem iter_files_drive_events
    (differ : git_diff_delta → Except Int (List git_hunk)) :
    ∀ (fuel : Nat) (it : git_diff_iterator),
      ∀ e ∈ (iter_files_drive differ fuel it).1,
        e.isHunkOrLine = true → skip_hunks e.delta = false := by
  intro fuel
  induction fuel with
  | zero => intro it e he; cases he
  | succ n ih =>
    intro it e he hkind
    cases hrem : it.remaining with
    | nil =>
      have hnext : git_diff_iterator_next_file it =
          (.iterover, { it with current := none, file_index := it.file_index + (if it.current.isSome then 1 else 0), hunk_cache := none, cur_lines := [] }) := by
        simp only [git_diff_iterator_next_file, hrem]
      rw [iter_files_drive, hnext] at he
      cases he
    | cons d rest =>
      have hnext : git_diff_iterator_next_file it =
          (.ok d, { it with remaining := rest, current := some d, file_index := it.file_index + (if it.current.isSome then 1 else 0), hunk_cache := none, cur_lines := [] }) := by
        simp only [git_diff_iterator_next_file, hrem]
      rw [iter_files_drive, hnext] at he
      dsimp only at he
      rcases List.mem_cons.mp he with he0 | he1
      · subst he0; cases hkind
      · rcases List.mem_append.mp he1 with he2 | he3
        · cases hsk : skip_hunks d with
          | true =>
            rw [iter_hunks_drive_skip differ d _ _ rfl rfl hsk] at he2
            cases he2
          | false =>
            rw [(iter_hunks_drive_events differ d _ _ e he2).1]
            exact hsk
        · exact ih _ e he3 hkind

/-- C4: binary deltas short-circuit.  Neither traversal facade ever
produces a hunk or a line for a delta whose is-binary flag is set: every
hunk or line visit of `git_diff_foreach` and of the pull-based iterator
belongs to a non-binary (and non-mode-only) delta, and `git_diff_blobs`
with at least one binary blob marks its delta binary and makes no hunk or
line callback. -/
theorem binary_deltas_short_circuit
    (differ : git_diff_delta → Except Int (List git_hunk))
    (deltas : List git_diff_delta) (fcb : git_diff_delta → Int)
    (hcb : Option (git_diff_delta → git_diff_range → String → Int))
    (lcb : Option (git_diff_delta → Char → String → Int))
    (old_blob new_blob : Option git_blob) (opts : git_diff_options) :
    (∀ e ∈ (git_diff_foreach differ deltas fcb hcb lcb).2,
      e.isHunkOrLine = true → e.delta.binary = false) ∧
    (∀ e ∈ git_diff_iterator_walk differ deltas,
      e.isHunkOrLine = true → e.delta.binary = false) ∧
    (blobs_binary old_blob new_blob = true →
      ∀ e ∈ (git_diff_blobs old_blob new_blob opts fcb hcb lcb).2,
        e.isHunkOrLine = false ∧ e.delta.binary = true) := by
  refine ⟨?_, ?_, ?_⟩
  · intro e he hkind
    have hskip := git_diff_foreach_events differ deltas fcb hcb lcb e he hkind
    rcases Bool.or_eq_false_iff.mp (by rw [← hskip]; rfl :
      (e.delta.binary || (e.delta.old_file.oid == e.delta.new_file.oid)) = false)
      with ⟨hb, -⟩
    exact hb
  · intro e he hkind
    have hskip := iter_files_drive_events differ (deltas.length + 1)
      (git_diff_iterator_new deltas) e he hkind
    rcases Bool.or_eq_false_iff.mp (by rw [← hskip]; rfl :
      (e.delta.binary || (e.delta.old_file.oid == e.delta.new_file.oid)) = false)
      with ⟨hb, -⟩
    exact hb
  · intro hbin e he
    simp only [git_diff_blobs, hbin] at he
    split at he
    · rcases List.mem_singleton.mp he with rfl
      exact ⟨rfl, rfl⟩
    · simp only [if_true] at he
      rcases List.mem_singleton.mp he with rfl
      exact ⟨rfl, rfl⟩

theorem iterator_visits_match_foreach_witness :
    git_diff_iterator_walk sample_differ [sample_mod_delta] =
      (git_diff_foreach sample_differ [sample_mod_delta] zero_file_cb
        (some zero_hunk_cb) (some zero_line_cb)).2 :=
  iterator_visits_match_foreach sample_differ [sample_mod_delta] zero_file_cb
    zero_hunk_cb zero_line_cb (fun x hx => ⟨[sample_hunk], rfl⟩)
    (fun _ => rfl) (fun _ _ _ => rfl) (fun _ _ _ => rfl)

theorem binary_deltas_short_circuit_witness :
    (DiffEvent.hunk sample_mod_delta sample_hunk.range sample_hunk.header).delta.binary = false ∧
    (DiffEvent.line sample_mod_delta ' ' "foo").delta.binary = false ∧
    ((DiffEvent.file sample_blobs_delta).isHunkOrLine = false ∧
      (DiffEvent.file sample_blobs_delta).delta.binary = true) := by
  refine ⟨?_, ?_, ?_⟩
  · exact (binary_deltas_short_circuit sample_differ [sample_mod_delta] zero_file_cb
      (some zero_hunk_cb) (some zero_line_cb) (some sample_blob) none sample_opts).1
      (DiffEvent.hunk sample_mod_delta sample_hunk.range sample_hunk.header)
      (by decide) (by decide)
  · exact (binary_deltas_short_circuit sample_differ [sample_mod_delta] zero_file_cb
      (some zero_hunk_cb) (some zero_line_cb) (some sample_blob) none sample_opts).2.1
      (DiffEvent.line sample_mod_delta ' ' "foo") (by decide) (by decide)
  · exact (binary_deltas_short_circuit sample_differ [sample_mod_delta] zero_file_cb
      (some zero_hunk_cb) (some zero_line_cb) (some sample_blob) none sample_opts).2.2
      (by decide) (DiffEvent.file sample_blobs_delta) (by decide)

theorem file_mem_trace_of (differ : git_diff_delta → Except Int (List git_hunk)) :
    ∀ (deltas : List git_diff_delta) (d : git_diff_delta), d ∈ deltas →
      DiffEvent.file d ∈ trace_of differ deltas := by
  intro deltas
  induction deltas with
  | nil => intro d hd; cases hd
  | cons x rest ih =>
    intro d hd
    rcases List.mem_cons.mp hd with hd0 | hd1
    · subst hd0
      simp [trace_of, delta_trace]
    · simp only [trace_of, List.map_cons, List.flatten_cons, List.mem_append]
      right
      exact ih d hd1

/-- C9: for a delta whose old and new sides have the same content id (its
only change is the file mode), `git_diff_foreach` never invokes the hunk or
line callbacks for that delta, even with hunk and line callbacks supplied,
and (when traversal completes: callbacks return zero and the differ
succeeds) it does invoke the file callback for it. -/
theorem mode_only_change_skips_hunks
    (differ : git_diff_delta → Except Int (List git_hunk))
    (deltas : List git_diff_delta) (fcb : git_diff_delta → Int)
    (hcb : git_diff_delta → git_diff_range → String → Int)
    (lcb : git_diff_delta → Char → String → Int)
    (d : git_diff_delta) (hmem : d ∈ deltas)
    (hsame : d.old_file.oid = d.new_file.oid) :
    ((∀ x ∈ deltas, ∃ hs, differ x = .ok hs) → (∀ x, fcb x = 0) →
      (∀ x r s, hcb x r s = 0) → (∀ x o c, lcb x o c = 0) →
      DiffEvent.file d ∈
        (git_diff_foreach differ deltas fcb (some hcb) (some lcb)).2) ∧
    (∀ r h, DiffEvent.hunk d r h ∉
      (git_diff_foreach differ deltas fcb (some hcb) (some lcb)).2) ∧
    (∀ o c, DiffEvent.line d o c ∉
      (git_diff_foreach differ deltas fcb (some hcb) (some lcb)).2) := by
  have hskip : skip_hunks d = true := by
    simp [skip_hunks, hsame]
  refine ⟨?_, ?_, ?_⟩
  · intro hdiff hzf hzh hzl
    rw [git_diff_foreach_zero differ deltas fcb hcb lcb hdiff hzf hzh hzl]
    exact file_mem_trace_of differ deltas d hmem
  · intro r h hin
    have := git_diff_foreach_events differ deltas fcb (some hcb) (some lcb)
      (DiffEvent.hunk d r h) hin rfl
    rw [show (DiffEvent.hunk d r h).delta = d from rfl, hskip] at this
    cases this
  · intro o c hin
    have := git_diff_foreach_events differ deltas fcb (some hcb) (some lcb)
      (DiffEvent.line d o c) hin rfl
    rw [show (DiffEvent.line d o c).delta = d from rfl, hskip] at this
    cases this

theorem mode_only_change_skips_hunks_witness :
    DiffEvent.file sample_mode_delta ∈
      (git_diff_foreach sample_differ [sample_mode_delta] zero_file_cb
        (some zero_hunk_cb) (some zero_line_cb)).2 ∧
    DiffEvent.hunk sample_mode_delta sample_hunk.range sample_hunk.header ∉
      (git_diff_foreach sample_differ [sample_mode_delta] zero_file_cb
        (some zero_hunk_cb) (some zero_line_cb)).2 := by
  have h := mode_only_change_skips_hunks sample_differ [sample_mode_delta]
    zero_file_cb zero_hunk_cb zero_line_cb sample_mode_delta
    (by decide) (by decide)
  exact ⟨h.1 (fun x hx => ⟨[sample_hunk], rfl⟩) (fun _ => rfl)
    (fun _ _ _ => rfl) (fun _ _ _ => rfl),
    h.2.1 sample_hunk.range sample_hunk.header⟩

theorem run_user_abort_single {α : Type} (r : α → Int) (x : α) (hx : r x ≠ 0) :
    run_user_abort r GIT_EUSER [x] :=
  ⟨rfl, [], x, rfl, hx, by intro e he; cases he⟩

theorem run_user_abort_cons {α : Type} (r : α → Int) (st : Int) (x : α)
    (tr : List α) (hx : r x = 0) (h : run_user_abort r st tr) :
    run_user_abort r st (x :: tr) := by
  rcases h with ⟨heu, pre, bad, heq, hbad, hpre⟩
  refine ⟨heu, x :: pre, bad, by rw [heq]; rfl, hbad, ?_⟩
  intro e he
  rcases List.mem_cons.mp he with he0 | he1
  · subst he0; exact hx
  · exact hpre e he1

theorem run_user_abort_append_left {α : Type} (r : α → Int) (st : Int)
    (pre0 tr : List α) (hpre0 : ∀ e ∈ pre0, r e = 0)
    (h : run_user_abort r st tr) : run_user_abort r st (pre0 ++ tr) := by
  induction pre0 with
  | nil => exact h
  | cons x rest ih =>
    rw [List.cons_append]
    exact run_user_abort_cons r st x (rest ++ tr)
      (hpre0 x (List.mem_cons_self x rest))
      (ih (fun e he => hpre0 e (List.mem_cons_of_mem x he)))

theorem foreach_lines_cases (fcb : git_diff_delta → Int)
    (hcb : Option (git_diff_delta → git_diff_range → String → Int))
    (lcb : Option (git_diff_delta → Char → String → Int))
    (d : git_diff_delta) (ls : List git_diff_line) :
    ((foreach_lines lcb d ls).1 = 0 ∧
      run_clean (event_ret fcb hcb lcb) (foreach_lines lcb d ls).2) ∨
    run_user_abort (event_ret fcb hcb lcb) (foreach_lines lcb d ls).1
      (foreach_lines lcb d ls).2 := by
  induction ls with
  | nil => exact Or.inl ⟨rfl, fun e he => absurd he (List.not_mem_nil e)⟩
  | cons l rest ih =>
    cases lcb with
    | none => exact Or.inl ⟨rfl, fun e he => absurd he (List.not_mem_nil e)⟩
    | some cb =>
      by_cases hr : cb d l.origin l.content ≠ 0
      · right
        simp only [foreach_lines, if_pos hr]
        exact run_user_abort_single _ _ hr
      · have hr0 : cb d l.origin l.content = 0 := not_ne_iff.mp hr
        simp only [foreach_lines, if_neg hr]
        rcases ih with ⟨h0, hcl⟩ | hab
        · left
          refine ⟨h0, ?_⟩
          intro e he
          rcases List.mem_cons.mp he with he0 | he1
          · subst he0; exact hr0
          · exact hcl e he1
        · right
          exact run_user_abort_cons _ _ _ _ hr0 hab

theorem foreach_hunks_cases (fcb : git_diff_delta → Int)
    (hcb : Option (git_diff_delta → git_diff_range → String → Int))
    (lcb : Option (git_diff_delta → Char → String → Int))
    (d : git_diff_delta) (hs : List git_hunk) :
    ((foreach_hunks hcb lcb d hs).1 = 0 ∧
      run_clean (event_ret fcb hcb lcb) (foreach_hunks hcb lcb d hs).2) ∨
    run_user_abort (event_ret fcb hcb lcb) (foreach_hunks hcb lcb d hs).1
      (foreach_hunks hcb lcb d hs).2 := by
  induction hs with
  | nil => exact Or.inl ⟨rfl, fun e he => absurd he (List.not_mem_nil e)⟩
  | cons h rest ih =>
    have hlines := foreach_lines_cases fcb hcb lcb d h.lines
    cases hcb with
    | none =>
      simp only [foreach_hunks, if_neg (by simp : ¬ (0 : Int) ≠ 0), List.nil_append]
      by_cases hl : (foreach_lines lcb d h.lines).1 ≠ 0
      · rw [if_pos hl]
        rcases hlines with ⟨h0, -⟩ | hab
        · exact absurd h0 hl
        · exact Or.inr hab
      · rw [if_neg hl]
        rcases hlines with ⟨-, hcl⟩ | ⟨heu, -⟩
        · rcases ih with ⟨h0, hcl2⟩ | hab
          · left
            refine ⟨h0, ?_⟩
            intro e he
            rcases List.mem_append.mp he with he1 | he2
            · exact hcl e he1
            · exact hcl2 e he2
          · right
            exact run_user_abort_append_left _ _ _ _ hcl hab
        · exact absurd heu (by rw [not_ne_iff.mp hl]; simp [GIT_EUSER])
    | some cb =>
      by_cases hr : cb d h.range h.header ≠ 0
      · right
        simp only [foreach_hunks, if_pos hr]
        simp only [if_pos (by simp [GIT_EUSER] : (GIT_EUSER : Int) ≠ 0)]
        exact run_user_abort_single _ _ hr
      · have hr0 : cb d h.range h.header = 0 := not_ne_iff.mp hr
        simp only [foreach_hunks, if_neg hr]
        simp only [if_neg (by simp : ¬ (0 : Int) ≠ 0), List.singleton_append]
        by_cases hl : (foreach_lines lcb d h.lines).1 ≠ 0
        · rw [if_pos hl]
          rcases hlines with ⟨h0, -⟩ | hab
          · exact absurd h0 hl
          · exact Or.inr (run_user_abort_cons _ _ _ _ hr0 hab)
        · rw [if_neg hl]
          rcases hlines with ⟨-, hcl⟩ | ⟨heu, -⟩
          · rcases ih with ⟨h0, hcl2⟩ | hab
            · left
              refine ⟨h0, ?_⟩
              intro e he
              rcases List.mem_cons.mp he with he0 | he1
              · subst he0; exact hr0
              · rcases List.mem_append.mp he1 with he2 | he3
                · exact hcl e he2
                · exact hcl2 e he3
            · right
              refine run_user_abort_cons _ _ _ _ hr0 ?_
              exact run_user_abort_append_left _ _ _ _ hcl hab
          · exact absurd heu (by rw [not_ne_iff.mp hl]; simp [GIT_EUSER])

theorem git_diff_foreach_cases
    (differ : git_diff_delta → Except Int (List git_hunk))
    (deltas : List git_diff_delta) (fcb : git_diff_delta → Int)
    (hcb : Option (git_diff_delta → git_diff_range → String → Int))
    (lcb : Option (git_diff_delta → Char → String → Int)) :
    run_clean (event_ret fcb hcb lcb) (git_diff_foreach differ deltas fcb hcb lcb).2 ∨
    run_user_abort (event_ret fcb hcb lcb)
      (git_diff_foreach differ deltas fcb hcb lcb).1
      (git_diff_foreach differ deltas fcb hcb lcb).2 := by
  induction deltas with
  | nil => exact Or.inl (fun e he => absurd he (List.not_mem_nil e))
  | cons d rest ih =>
    by_cases hf : fcb d ≠ 0
    · right
      simp only [git_diff_foreach, if_pos hf]
      exact run_user_abort_single _ _ hf
    · have hf0 : fcb d = 0 := not_ne_iff.mp hf
      simp only [git_diff_foreach, if_neg hf]
      by_cases hwant : ((hcb.isSome || lcb.isSome) && !(skip_hunks d)) = true
      · rw [if_pos hwant]
        cases hdf : differ d with
        | error ec =>
          left
          intro e he
          rcases List.mem_singleton.mp he with rfl
          exact hf0
        | ok hs =>
          dsimp only
          have hhunks := foreach_hunks_cases fcb hcb lcb d hs
          by_cases hh : (foreach_hunks hcb lcb d hs).1 ≠ 0
          · rw [if_pos hh]
            rcases hhunks with ⟨h0, -⟩ | hab
            · exact absurd h0 hh
            · exact Or.inr (run_user_abort_cons _ _ _ _ hf0 hab)
          · rw [if_neg hh]
            dsimp only
            rcases hhunks with ⟨-, hcl⟩ | ⟨heu, -⟩
            · rcases ih with hcl2 | hab2
              · left
                intro e he
                rcases List.mem_cons.mp he with he0 | he1
                · subst he0; exact hf0
                · rcases List.mem_append.mp he1 with he2 | he3
                  · exact hcl e he2
                  · exact hcl2 e he3
              · right
                refine run_user_abort_cons _ _ _ _ hf0 ?_
                exact run_user_abort_append_left _ _ _ _ hcl hab2
            · exact absurd heu (by rw [not_ne_iff.mp hh]; simp [GIT_EUSER])
      · rw [if_neg hwant]
        dsimp only
        rcases ih with hcl2 | hab2
        · left
          intro e he
          rcases List.mem_cons.mp he with he0 | he1
          · subst he0; exact hf0
          · exact hcl2 e he1
        · exact Or.inr (run_user_abort_cons _ _ _ _ hf0 hab2)

theorem git_diff_print_compact_cases (deltas : List git_diff_delta)
    (pcb : git_diff_delta → Char → String → Int) :
    run_clean (print_ret pcb) (git_diff_print_compact deltas pcb).2 ∨
    run_user_abort (print_ret pcb) (git_diff_print_compact deltas pcb).1
      (git_diff_print_compact deltas pcb).2 := by
  induction deltas with
  | nil => exact Or.inl (fun e he => absurd he (List.not_mem_nil e))
  | cons d rest ih =>
    by_cases hf : pcb d GIT_DIFF_LINE_FILE_HDR (compact_line d) ≠ 0
    · right
      simp only [git_diff_print_compact, if_pos hf]
      exact run_user_abort_single _ _ hf
    · have hf0 := not_ne_iff.mp hf
      simp only [git_diff_print_compact, if_neg hf]
      rcases ih with hcl | hab
      · left
        intro e he
        rcases List.mem_cons.mp he with he0 | he1
        · subst he0; exact hf0
        · exact hcl e he1
      · exact Or.inr (run_user_abort_cons _ _ _ _ hf0 hab)

theorem print_patch_lines_cases (pcb : git_diff_delta → Char → String → Int)
    (d : git_diff_delta) (ls : List git_diff_line) :
    ((print_patch_lines pcb d ls).1 = 0 ∧
      run_clean (print_ret pcb) (print_patch_lines pcb d ls).2) ∨
    run_user_abort (print_ret pcb) (print_patch_lines pcb d ls).1
      (print_patch_lines pcb d ls).2 := by
  induction ls with
  | nil => exact Or.inl ⟨rfl, fun e he => absurd he (List.not_mem_nil e)⟩
  | cons l rest ih =>
    by_cases hr : pcb d l.origin l.content ≠ 0
    · right
      simp only [print_patch_lines, if_pos hr]
      exact run_user_abort_single _ _ hr
    · have hr0 := not_ne_iff.mp hr
      simp only [print_patch_lines, if_neg hr]
      rcases ih with ⟨h0, hcl⟩ | hab
      · left
        refine ⟨h0, ?_⟩
        intro e he
        rcases List.mem_cons.mp he with he0 | he1
        · subst he0; exact hr0
        · exact hcl e he1
      · exact Or.inr (run_user_abort_cons _ _ _ _ hr0 hab)

theorem print_patch_hunks_cases (pcb : git_diff_delta → Char → String → Int)
    (d : git_diff_delta) (hs : List git_hunk) :
    ((print_patch_hunks pcb d hs).1 = 0 ∧
      run_clean (print_ret pcb) (print_patch_hunks pcb d hs).2) ∨
    run_user_abort (print_ret pcb) (print_patch_hunks pcb d hs).1
      (print_patch_hunks pcb d hs).2 := by
  induction hs with
  | nil => exact Or.inl ⟨rfl, fun e he => absurd he (List.not_mem_nil e)⟩
  | cons h rest ih =>
    have hlines := print_patch_lines_cases pcb d h.lines
    by_cases hr : pcb d GIT_DIFF_LINE_HUNK_HDR h.header ≠ 0
    · right
      simp only [print_patch_hunks, if_pos hr]
      exact run_user_abort_single _ _ hr
    · have hr0 := not_ne_iff.mp hr
      simp only [print_patch_hunks, if_neg hr]
      by_cases hl : (print_patch_lines pcb d h.lines).1 ≠ 0
      · rw [if_pos hl]
        rcases hlines with ⟨h0, -⟩ | hab
        · exact absurd h0 hl
        · exact Or.inr (run_user_abort_cons _ _ _ _ hr0 hab)
      · rw [if_neg hl]
        dsimp only
        rcases hlines with ⟨-, hcl⟩ | ⟨heu, -⟩
        · rcases ih with ⟨h0, hcl2⟩ | hab2
          · left
            refine ⟨h0, ?_⟩
            intro e he
            rcases List.mem_cons.mp he with he0 | he1
            · subst he0; exact hr0
            · rcases List.mem_append.mp he1 with he2 | he3
              · exact hcl e he2
              · exact hcl2 e he3
          · right
            refine run_user_abort_cons _ _ _ _ hr0 ?_
            exact run_user_abort_append_left _ _ _ _ hcl hab2
        · exact absurd heu (by rw [not_ne_iff.mp hl]; simp [GIT_EUSER])

theorem git_diff_print_patch_cases
    (differ : git_diff_delta → Except Int (List git_hunk))
    (deltas : List git_diff_delta)
    (pcb : git_diff_delta → Char → String → Int) :
    run_clean (print_ret pcb) (git_diff_print_patch differ deltas pcb).2 ∨
    run_user_abort (print_ret pcb) (git_diff_print_patch differ deltas pcb).1
      (git_diff_print_patch differ deltas pcb).2 := by
  induction deltas with
  | nil => exact Or.inl (fun e he => absurd he (List.not_mem_nil e))
  | cons d rest ih =>
    by_cases hf : pcb d GIT_DIFF_LINE_FILE_HDR (patch_file_header d) ≠ 0
    · right
      simp only [git_diff_print_patch, if_pos hf]
      exact run_user_abort_single _ _ hf
    · have hf0 := not_ne_iff.mp hf
      simp only [git_diff_print_patch, if_neg hf]
      by_cases hbin : d.binary = true
      · rw [if_pos hbin]
        by_cases hb : pcb d GIT_DIFF_LINE_BINARY (binary_marker d) ≠ 0
        · rw [if_pos hb]
          right
          exact run_user_abort_cons _ _ _ _ hf0 (run_user_abort_single _ _ hb)
        · have hb0 := not_ne_iff.mp hb
          rw [if_neg hb]
          dsimp only
          rcases ih with hcl | hab
          · left
            intro e he
            rcases List.mem_cons.mp he with he0 | he1
            · subst he0; exact hf0
            · rcases List.mem_cons.mp he1 with he2 | he3
              · subst he2; exact hb0
              · exact hcl e he3
          · right
            exact run_user_abort_cons _ _ _ _ hf0
              (run_user_abort_cons _ _ _ _ hb0 hab)
      · rw [if_neg hbin]
        by_cases hskip : skip_hunks d = true
        · rw [if_pos hskip]
          dsimp only
          rcases ih with hcl | hab
          · left
            intro e he
            rcases List.mem_cons.mp he with he0 | he1
            · subst he0; exact hf0
            · exact hcl e he1
          · exact Or.inr (run_user_abort_cons _ _ _ _ hf0 hab)
        · rw [if_neg hskip]
          cases hdf : differ d with
          | error ec =>
            left
            intro e he
            rcases List.mem_singleton.mp he with rfl
            exact hf0
          | ok hs =>
            dsimp only
            have hhunks := print_patch_hunks_cases pcb d hs
            by_cases hh : (print_patch_hunks pcb d hs).1 ≠ 0
            · rw [if_pos hh]
              rcases hhunks with ⟨h0, -⟩ | hab
              · exact absurd h0 hh
              · exact Or.inr (run_user_abort_cons _ _ _ _ hf0 hab)
            · rw [if_neg hh]
              dsimp only
              rcases hhunks with ⟨-, hcl⟩ | ⟨heu, -⟩
              · rcases ih with hcl2 | hab2
                · left
                  intro e he
                  rcases List.mem_cons.mp he with he0 | he1
                  · subst he0; exact hf0
                  · rcases List.mem_append.mp he1 with he2 | he3
                    · exact hcl e he2
                    · exact hcl2 e he3
                · right
                  refine run_user_abort_cons _ _ _ _ hf0 ?_
                  exact run_user_abort_append_left _ _ _ _ hcl hab2
              · exact absurd heu (by rw [not_ne_iff.mp hh]; simp [GIT_EUSER])

/-- C5: if any file, hunk or line callback invoked during `git_diff_foreach`
(or during `print_compact` / `print_patch`) returns non-zero, the traversal
stops immediately — the aborting invocation is the last one, every earlier
one returned zero — and the entry point returns the user-abort status
`GIT_EUSER`, irrespective of any other error state of the engine. -/
theorem callback_abort_returns_euser
    (differ : git_diff_delta → Except Int (List git_hunk))
    (deltas : List git_diff_delta) (fcb : git_diff_delta → Int)
    (hcb : Option (git_diff_delta → git_diff_range → String → Int))
    (lcb : Option (git_diff_delta → Char → String → Int))
    (pcb : git_diff_delta → Char → String → Int) :
    ((∃ e ∈ (git_diff_foreach differ deltas fcb hcb lcb).2,
        event_ret fcb hcb lcb e ≠ 0) →
      (git_diff_foreach differ deltas fcb hcb lcb).1 = GIT_EUSER ∧
      run_user_abort (event_ret fcb hcb lcb)
        (git_diff_foreach differ deltas fcb hcb lcb).1
        (git_diff_foreach differ deltas fcb hcb lcb).2) ∧
    ((∃ e ∈ (git_diff_print_compact deltas pcb).2, print_ret pcb e ≠ 0) →
      (git_diff_print_compact deltas pcb).1 = GIT_EUSER ∧
      run_user_abort (print_ret pcb) (git_diff_print_compact deltas pcb).1
        (git_diff_print_compact deltas pcb).2) ∧
    ((∃ e ∈ (git_diff_print_patch differ deltas pcb).2, print_ret pcb e ≠ 0) →
      (git_diff_print_patch differ deltas pcb).1 = GIT_EUSER ∧
      run_user_abort (print_ret pcb) (git_diff_print_patch differ deltas pcb).1
        (git_diff_print_patch differ deltas pcb).2) := by
  refine ⟨?_, ?_, ?_⟩
  · intro hex
    rcases git_diff_foreach_cases differ deltas fcb hcb lcb with hcl | hab
    · rcases hex with ⟨e, he, hne⟩
      exact absurd (hcl e he) hne
    · exact ⟨hab.1, hab⟩
  · intro hex
    rcases git_diff_print_compact_cases deltas pcb with hcl | hab
    · rcases hex with ⟨e, he, hne⟩
      exact absurd (hcl e he) hne
    · exact ⟨hab.1, hab⟩
  · intro hex
    rcases git_diff_print_patch_cases differ deltas pcb with hcl | hab
    · rcases hex with ⟨e, he, hne⟩
      exact absurd (hcl e he) hne
    · exact ⟨hab.1, hab⟩

theorem callback_abort_returns_euser_witness :
    (git_diff_foreach sample_differ [sample_mod_delta] one_file_cb
      (some zero_hunk_cb) (some zero_line_cb)).1 = GIT_EUSER ∧
    (git_diff_print_compact [sample_mod_delta] one_print_cb).1 = GIT_EUSER ∧
    (git_diff_print_patch sample_differ [sample_mod_delta] one_print_cb).1 =
      GIT_EUSER := by
  have h := callback_abort_returns_euser sample_differ [sample_mod_delta]
    one_file_cb (some zero_hunk_cb) (some zero_line_cb) one_print_cb
  exact ⟨(h.1 (by decide)).1, (h.2.1 (by decide)).1, (h.2.2 (by decide)).1⟩

/-- C10: calling `next_hunk` while the iterator's current file is a binary
delta is permitted and is not an error: immediately after `next_file` has
returned a binary delta, `next_hunk` reports the exhausted sentinel (the
binary short-circuit yields no hunks) and never a failure caused by the
file being binary. -/
theorem next_hunk_on_binary_not_error
    (differ : git_diff_delta → Except Int (List git_hunk))
    (it it' : git_diff_iterator) (d : git_diff_delta)
    (h : git_diff_iterator_next_file it = (.ok d, it'))
    (hb : d.binary = true) :
    (git_diff_iterator_next_hunk differ it').1 = .iterover ∧
    ∀ ec : Int, (git_diff_iterator_next_hunk differ it').1 ≠ .err ec := by
  cases hrem : it.remaining with
  | nil => simp [git_diff_iterator_next_file, hrem] at h
  | cons x rest =>
    simp only [git_diff_iterator_next_file, hrem, Prod.mk.injEq,
      IterResult.ok.injEq] at h
    rcases h with ⟨hxd, hit⟩
    subst hxd
    have hcur : it'.current = some x := by rw [← hit]
    have hcache : it'.hunk_cache = none := by rw [← hit]
    have h1 : (git_diff_iterator_next_hunk differ it').1 = .iterover := by
      simp [git_diff_iterator_next_hunk, hcur, hcache, hunks_for, skip_hunks, hb]
    refine ⟨h1, ?_⟩
    intro ec hc
    rw [h1] at hc
    cases hc

theorem next_hunk_on_binary_not_error_witness :
    (git_diff_iterator_next_hunk sample_differ
      (git_diff_iterator_next_file (git_diff_iterator_new
        [{ sample_mod_delta with binary := true }])).2).1 = .iterover := by
  exact (next_hunk_on_binary_not_error sample_differ
    (git_diff_iterator_new [{ sample_mod_delta with binary := true }])
    (git_diff_iterator_next_file (git_diff_iterator_new
      [{ sample_mod_delta with binary := true }])).2
    { sample_mod_delta with binary := true } (by decide) rfl).1

theorem iter_inv_new (ds : List git_diff_delta) :
    iter_inv (git_diff_iterator_new ds) := by
  simp [iter_inv, git_diff_iterator_new]

theorem next_file_counters (it : git_diff_iterator) :
    (git_diff_iterator_next_file it).2.file_index =
      it.file_index + (if it.current.isSome then 1 else 0) ∧
    (git_diff_iterator_next_file it).2.diff_length = it.diff_length := by
  cases hrem : it.remaining <;> simp [git_diff_iterator_next_file, hrem]

theorem iter_inv_next_file (it : git_diff_iterator) (h : iter_inv it) :
    iter_inv (git_diff_iterator_next_file it).2 := by
  unfold iter_inv at h ⊢
  cases hrem : it.remaining with
  | nil =>
    simp [git_diff_iterator_next_file, hrem] at h ⊢
    omega
  | cons d rest =>
    simp [git_diff_iterator_next_file, hrem] at h ⊢
    omega

theorem iter_inv_next_hunk (differ : git_diff_delta → Except Int (List git_hunk))
    (it : git_diff_iterator) (h : iter_inv it) :
    iter_inv (git_diff_iterator_next_hunk differ it).2 := by
  unfold git_diff_iterator_next_hunk
  split
  · exact h
  · dsimp only
    split
    · exact h
    · split
      · exact h
      · exact h

theorem iter_inv_next_line (it : git_diff_iterator) (h : iter_inv it) :
    iter_inv (git_diff_iterator_next_line it).2 := by
  unfold git_diff_iterator_next_line
  split
  · exact h
  · exact h

/-- C8 (amended): for every reachable iterator state, the progress value
lies in [0,1] and is monotonically non-decreasing across `next_file` calls;
any `next_file` call that still returns a file leaves progress strictly
below 1; and — provided the diff list is nonempty — progress equals 1 once
`next_file` has reported the Exhausted sentinel.  (On an empty diff list
the sentinel is reported while `file_index / total_files = 0/0` is not 1.)
The invariant `iter_inv` holds for a fresh iterator and is preserved by
every cursor operation, so it covers exactly the reachable states. -/
theorem iterator_progress_spec
    (differ : git_diff_delta → Except Int (List git_hunk))
    (ds : List git_diff_delta) (it : git_diff_iterator) (hinv : iter_inv it) :
    (iter_inv (git_diff_iterator_new ds) ∧
      iter_inv (git_diff_iterator_next_file it).2 ∧
      iter_inv (git_diff_iterator_next_hunk differ it).2 ∧
      iter_inv (git_diff_iterator_next_line it).2) ∧
    (0 ≤ git_diff_iterator_progress it ∧ git_diff_iterator_progress it ≤ 1) ∧
    git_diff_iterator_progress it ≤
      git_diff_iterator_progress (git_diff_iterator_next_file it).2 ∧
    (∀ d it', git_diff_iterator_next_file it = (.ok d, it') →
      git_diff_iterator_progress it' < 1) ∧
    (it.diff_length ≠ 0 → (git_diff_iterator_next_file it).1 = .iterover →
      git_diff_iterator_progress (git_diff_iterator_next_file it).2 = 1) := by
  have hfi_le : it.file_index ≤ it.diff_length := by
    unfold iter_inv at hinv
    omega
  refine ⟨⟨iter_inv_new ds, iter_inv_next_file it hinv,
    iter_inv_next_hunk differ it hinv, iter_inv_next_line it hinv⟩, ⟨?_, ?_⟩, ?_, ?_, ?_⟩
  · exact div_nonneg (Nat.cast_nonneg _) (Nat.cast_nonneg _)
  · unfold git_diff_iterator_progress
    exact div_le_one_of_le₀ (by exact_mod_cast hfi_le) (Nat.cast_nonneg _)
  · unfold git_diff_iterator_progress
    rw [(next_file_counters it).1, (next_file_counters it).2]
    by_cases hn : it.diff_length = 0
    · simp [hn]
    · have hnp : (0 : ℚ) < (it.diff_length : ℚ) :=
        Nat.cast_pos.mpr (Nat.pos_of_ne_zero hn)
      have hle : ((it.file_index : ℚ)) ≤
          (((it.file_index + if it.current.isSome then 1 else 0 : Nat)) : ℚ) := by
        exact_mod_cast Nat.le_add_right _ _
      exact (div_le_div_iff_of_pos_right hnp).mpr hle
  · intro d it' h
    cases hrem : it.remaining with
    | nil => simp [git_diff_iterator_next_file, hrem] at h
    | cons x rest =>
      simp only [git_diff_iterator_next_file, hrem, Prod.mk.injEq,
        IterResult.ok.injEq] at h
      rcases h with ⟨hxd, hit⟩
      have hfi : it'.file_index =
          it.file_index + (if it.current.isSome then 1 else 0) := by rw [← hit]
      have hdl : it'.diff_length = it.diff_length := by rw [← hit]
      have hlt : it'.file_index < it.diff_length := by
        unfold iter_inv at hinv
        rw [hrem] at hinv
        rw [hfi]
        simp at hinv
        omega
      have hnp : (0 : ℚ) < (it.diff_length : ℚ) :=
        Nat.cast_pos.mpr (by omega)
      unfold git_diff_iterator_progress
      rw [hdl]
      rw [div_lt_one hnp]
      exact_mod_cast hlt
  · intro hn hiter
    cases hrem : it.remaining with
    | cons x rest => simp [git_diff_iterator_next_file, hrem] at hiter
    | nil =>
      have hfi : (git_diff_iterator_next_file it).2.file_index = it.diff_length := by
        unfold iter_inv at hinv
        rw [hrem] at hinv
        simp at hinv
        simp [git_diff_iterator_next_file, hrem]
        omega
      unfold git_diff_iterator_progress
      rw [hfi, (next_file_counters it).2]
      exact div_self (by exact_mod_cast hn)

theorem iterator_progress_claim_counterexample :
    (git_diff_iterator_next_file (git_diff_iterator_new [])).1 = .iterover ∧
    git_diff_iterator_progress
      (git_diff_iterator_next_file (git_diff_iterator_new [])).2 ≠ 1 := by
  constructor
  · rfl
  · have h0 : git_diff_iterator_progress
        (git_diff_iterator_next_file (git_diff_iterator_new [])).2 = 0 := by
      simp [git_diff_iterator_progress, git_diff_iterator_next_file,
        git_diff_iterator_new]
    rw [h0]
    norm_num

theorem iterator_progress_spec_witness :
    git_diff_iterator_progress
      (git_diff_iterator_next_file
        (git_diff_iterator_next_file
          (git_diff_iterator_new [sample_mod_delta])).2).2 = 1 :=
  (iterator_progress_spec sample_differ [sample_mod_delta]
    (git_diff_iterator_next_file (git_diff_iterator_new [sample_mod_delta])).2
    (by decide)).2.2.2.2 (by decide) (by decide)
